import Mathlib

/-!
Verification development for the hybrid relevance-ranking engine of
`src/backend/src/RAGPipeline.ts` (class `RAGPipeline`): tokenizer, TF-IDF
cosine "semantic" search, keyword search, BM25 search, hybrid merge, and
the deduplicating result combiner.

Modelling conventions, fixed once here:

* JavaScript numbers are modelled by `JNum`: an exact rational (`fin q`),
  `nan`, `pinf` (+Infinity) or `ninf` (-Infinity).  Arithmetic follows the
  IEEE rules JavaScript uses (`0/0 = NaN`, `x/0 = ±Infinity` for `x ≠ 0`,
  `NaN` absorbing, comparisons with `NaN` false, `Math.max()` of nothing
  `-Infinity`).  The `-0`/`+0` distinction is not modelled; it is never
  observable in this pipeline.
* `Math.log` is modelled by an abstract parameter `L : ℚ → ℚ`; every call
  site in the pipeline applies it to a strictly positive rational, so the
  result is an ordinary finite number.  Theorems that depend on properties
  of the natural logarithm state them as hypotheses on `L`; closed
  evaluations instantiate `L` with `signLog`, which has the same sign
  behaviour as `ln` (negative below 1, zero at 1, positive above 1).
* `Math.sqrt` is modelled exactly on perfect rational squares and collapses
  to `nan` otherwise; every concrete evaluation below only reaches `sqrt`
  on perfect squares (or on `nan`, which propagates identically).
* `Array.prototype.sort` with the comparator `(a, b) => score(b) - score(a)`
  is modelled as a stable insertion sort in which `a` stays before `b`
  unless the comparator is strictly positive — the ECMAScript-mandated
  stable-sort behaviour, including the rule that a `NaN` comparator result
  is treated as "keep the order".
* A JavaScript `Map` is modelled as an insertion-ordered association list:
  `set` on an existing key replaces the value in place, keeping the
  original position, as `Map` does.
* `topK` is modelled as a natural number (the engine's contract passes
  small positive counts; the default is 5).
-/

namespace Rag

/-- Model of a JavaScript number: an exact rational, NaN, or ±Infinity. -/
inductive JNum where
  | fin (q : ℚ)
  | nan
  | pinf
  | ninf
deriving DecidableEq, Repr

/-- JavaScript unary minus. -/
def jneg : JNum → JNum
  | .fin q => .fin (-q)
  | .nan => .nan
  | .pinf => .ninf
  | .ninf => .pinf

/-- JavaScript addition. -/
def jadd : JNum → JNum → JNum
  | .nan, _ => .nan
  | _, .nan => .nan
  | .fin a, .fin b => .fin (a + b)
  | .fin _, .pinf => .pinf
  | .fin _, .ninf => .ninf
  | .pinf, .fin _ => .pinf
  | .ninf, .fin _ => .ninf
  | .pinf, .pinf => .pinf
  | .pinf, .ninf => .nan
  | .ninf, .pinf => .nan
  | .ninf, .ninf => .ninf

/-- JavaScript subtraction. -/
def jsub (a b : JNum) : JNum := jadd a (jneg b)

/-- JavaScript multiplication (`0 * ±Infinity = NaN`). -/
def jmul : JNum → JNum → JNum
  | .nan, _ => .nan
  | _, .nan => .nan
  | .fin a, .fin b => .fin (a * b)
  | .fin a, .pinf => if a = 0 then .nan else if 0 < a then .pinf else .ninf
  | .fin a, .ninf => if a = 0 then .nan else if 0 < a then .ninf else .pinf
  | .pinf, .fin b => if b = 0 then .nan else if 0 < b then .pinf else .ninf
  | .ninf, .fin b => if b = 0 then .nan else if 0 < b then .ninf else .pinf
  | .pinf, .pinf => .pinf
  | .pinf, .ninf => .ninf
  | .ninf, .pinf => .ninf
  | .ninf, .ninf => .pinf

/-- JavaScript division (`0/0 = NaN`, `x/0 = ±Infinity` for finite `x ≠ 0`). -/
def jdiv : JNum → JNum → JNum
  | .nan, _ => .nan
  | _, .nan => .nan
  | .fin a, .fin b =>
      if b = 0 then (if a = 0 then .nan else if 0 < a then .pinf else .ninf)
      else .fin (a / b)
  | .fin _, .pinf => .fin 0
  | .fin _, .ninf => .fin 0
  | .pinf, .fin b => if 0 ≤ b then .pinf else .ninf
  | .ninf, .fin b => if 0 ≤ b then .ninf else .pinf
  | .pinf, .pinf => .nan
  | .pinf, .ninf => .nan
  | .ninf, .pinf => .nan
  | .ninf, .ninf => .nan

/-- JavaScript `<` (false whenever one side is NaN). -/
def jltB : JNum → JNum → Bool
  | .nan, _ => false
  | _, .nan => false
  | .fin a, .fin b => decide (a < b)
  | .fin _, .pinf => true
  | .fin _, .ninf => false
  | .pinf, _ => false
  | .ninf, .pinf => true
  | .ninf, .fin _ => true
  | .ninf, .ninf => false

/-- JavaScript `Math.max` of two numbers (NaN-propagating). -/
def jmax : JNum → JNum → JNum
  | .nan, _ => .nan
  | _, .nan => .nan
  | .fin a, .fin b => .fin (max a b)
  | .pinf, _ => .pinf
  | _, .pinf => .pinf
  | .ninf, x => x
  | x, .ninf => x

/-- Model of `Math.max(...list)`; on the empty list this is `-Infinity`. -/
def jmaxList (l : List JNum) : JNum := l.foldl jmax .ninf

/-- Exact square root of a nonnegative rational, when it is rational.
Since a `ℚ` is kept in lowest terms, the square root is rational precisely
when numerator and denominator are both perfect squares.  The linear search
is deliberately structural so that the kernel can evaluate it. -/
def ratSqrt (q : ℚ) : Option ℚ :=
  if q.num < 0 then none else
  match (List.range (q.num.toNat + 1)).find? (fun r => r * r == q.num.toNat),
        (List.range (q.den + 1)).find? (fun r => r * r == q.den) with
  | some sn, some sd => some ((sn : ℚ) / (sd : ℚ))
  | _, _ => none

/-- Model of `Math.sqrt`: NaN for NaN and negative arguments; exact on
perfect rational squares, collapsed to `nan` otherwise (see the header). -/
def jsqrt : JNum → JNum
  | .nan => .nan
  | .pinf => .pinf
  | .ninf => .nan
  | .fin q =>
      if q < 0 then .nan else
      match ratSqrt q with
      | some r => .fin r
      | none => .nan

/-- Model of the JavaScript idiom `x || 0` for a number `x`: `NaN` and `0`
are falsy and give `0`; every other number is truthy and kept. -/
def jor0 : JNum → JNum
  | .nan => .fin 0
  | .fin q => .fin q
  | x => x

/-- Model of `x || 0` where the field `x` may also be absent (`undefined`). -/
def orZero : Option JNum → JNum
  | none => .fin 0
  | some x => jor0 x

/-! ### Tokenizer -/

/-- JavaScript regex `\w` without the `u` flag: ASCII letters, digits, `_`. -/
def isWordChar (c : Char) : Bool := c.isAlpha || c.isDigit || c = '_'

/-- Whitespace characters relevant to `\s` for the inputs modelled here. -/
def isSpaceChar (c : Char) : Bool := c = ' ' || c = '\t' || c = '\n' || c = '\r'

/-- The `.replace(/[^\w\s]/g, ' ')` step: any character that is neither a
word character nor whitespace becomes a space. -/
def scrubChar (c : Char) : Char := if isWordChar c || isSpaceChar c then c else ' '

/-- Splitting on runs of whitespace.  Splitting at every single whitespace
character can produce empty segments (as `split(/\s+/)` can produce a
leading empty string); both are removed by the length filter in `tokenize`,
so the two readings agree after filtering. -/
def splitWs (l : List Char) : List (List Char) := l.splitOnP isSpaceChar

/-- `tokenize` from the source: lower-case, replace non-word non-space
characters by spaces, split on whitespace, drop tokens of length ≤ 2. -/
def tokenize (s : String) : List (List Char) :=
  (splitWs ((s.data.map Char.toLower).map scrubChar)).filter (fun w => decide (2 < w.length))

/-- Lower-cased character list of a string (`text.toLowerCase()`). -/
def lowerData (s : String) : List Char := s.data.map Char.toLower

/-- Fuel-driven worker for `countOccs` (structural, hence kernel-evaluable). -/
def countOccsAux (pat : List Char) : Nat → List Char → Nat
  | 0, _ => 0
  | _, [] => 0
  | fuel + 1, c :: cs =>
      if pat.isPrefixOf (c :: cs) then
        1 + countOccsAux pat fuel (cs.drop (pat.length - 1))
      else
        countOccsAux pat fuel cs

/-- Number of matches of `text.match(new RegExp(pat, 'g'))`: left-to-right
non-overlapping occurrence count.  (Query tokens contain only word
characters, so the regex is a literal-string match.)  The empty pattern
matches at every position, giving `length + 1` — never reached here since
tokens have length ≥ 3. -/
def countOccs (pat s : List Char) : Nat :=
  if pat = [] then s.length + 1 else countOccsAux pat s.length s

/-- Model of `text.includes(pat)`. -/
def containsSub (pat : List Char) : List Char → Bool
  | [] => pat.isEmpty
  | c :: cs => pat.isPrefixOf (c :: cs) || containsSub pat cs

/-! ### Data model -/

/-- `JournalEntry` from the source. -/
structure JournalEntry where
  date : String
  day : String
  text : String
  timestamp : Option String := none
deriving DecidableEq, Repr

/-- The provenance tag `searchType`. -/
inductive SType where
  | semantic
  | keyword
  | hybrid
deriving DecidableEq, Repr

/-- `SearchResult` from the source: an entry plus optional score fields.
`bm25_score` is the extra field `performBM25Search` attaches (kept as an
exact rational: every value it receives is finite, see `bm25ScoredList`). -/
structure SearchResult where
  date : String
  day : String
  text : String
  timestamp : Option String := none
  similarity_score : Option JNum := none
  keyword_score : Option JNum := none
  hybrid_score : Option JNum := none
  bm25_score : Option ℚ := none
  searchType : Option SType := none
deriving DecidableEq, Repr

/-- The entry data carried by a result. -/
def toEntry (r : SearchResult) : JournalEntry :=
  { date := r.date, day := r.day, text := r.text, timestamp := r.timestamp }

/-- Fallback entry used to totalise list indexing (never reached: every
index comes from `List.range` over the corpus length). -/
def blankEntry : JournalEntry := { date := "", day := "", text := "" }

/-! ### Sorting -/

/-- Stable model of `array.sort((a, b) => f(b) - f(a))`: `a` stays before
`b` unless the comparator value `f(b) - f(a)` is strictly positive; a NaN
comparator result keeps the order, as in ECMAScript. -/
def jsSort {α : Type} (f : α → JNum) (l : List α) : List α :=
  List.insertionSort (fun a b => jltB (.fin 0) (jsub (f b) (f a)) = false) l

/-! ### Semantic search (TF-IDF + cosine) -/

/-- Term frequency of `calculateTFIDF`: `count(t in d) / |tokens(d)|`; for a
document with no tokens the source's map lookup yields the default `0`,
which coincides with `ℚ`'s `0/0 = 0`. -/
def tfQ (toks : List (List Char)) (t : List Char) : ℚ :=
  (toks.count t : ℚ) / (toks.length : ℚ)

/-- Number of documents whose token list contains `t`
(`Object.keys(tfidf[term] || {}).length`). -/
def docFreq (docToks : List (List (List Char))) (t : List Char) : ℕ :=
  (docToks.filter (fun d => d.contains t)).length

/-- The idf used for both document and query vectors:
`Math.log(documents.length / (df + 1))`.  The argument is a strictly
positive rational, so `Math.log` returns a finite number, modelled as `L`. -/
def idfSem (L : ℚ → ℚ) (n : ℕ) (docToks : List (List (List Char))) (t : List Char) : ℚ :=
  L ((n : ℚ) / ((docFreq docToks t : ℚ) + 1))

/-- Vocabulary a la `new Set()` + `Array.from`: all document tokens then all
query tokens, first occurrence order. -/
def buildVocab (l : List (List Char)) : List (List Char) :=
  l.foldl (fun acc t => if t ∈ acc then acc else acc ++ [t]) []

/-- TF-IDF vector of document `i` over the vocabulary. -/
def docVector (L : ℚ → ℚ) (n : ℕ) (docToks : List (List (List Char)))
    (vocab : List (List Char)) (i : ℕ) : List JNum :=
  vocab.map (fun t => .fin (tfQ (docToks.getD i []) t * idfSem L n docToks t))

/-- TF-IDF vector of the query.  The term frequency is
`(queryTermCount[term] || 0) / queryTokens.length`, a genuine JavaScript
division: for an empty-token query this is `0/0 = NaN`. -/
def queryVector (L : ℚ → ℚ) (n : ℕ) (docToks : List (List (List Char)))
    (vocab : List (List Char)) (queryTokens : List (List Char)) : List JNum :=
  vocab.map (fun t =>
    jmul (jdiv (.fin (queryTokens.count t : ℚ)) (.fin (queryTokens.length : ℚ)))
      (.fin (idfSem L n docToks t)))

/-- `cosineSimilarity` from the source: length guard, accumulation of dot
product and squared norms, the `normA === 0 || normB === 0` guard, then
`dot / (sqrt(normA) * sqrt(normB))`. -/
def cosineSimilarity (vecA vecB : List JNum) : JNum :=
  if vecA.length ≠ vecB.length then .fin 0 else
  let dot := (List.zipWith jmul vecA vecB).foldl jadd (.fin 0)
  let normA := (vecA.map (fun x => jmul x x)).foldl jadd (.fin 0)
  let normB := (vecB.map (fun x => jmul x x)).foldl jadd (.fin 0)
  if normA = .fin 0 ∨ normB = .fin 0 then .fin 0
  else jdiv dot (jmul (jsqrt normA) (jsqrt normB))

/-- Result constructor `{ ...entry, similarity_score }`. -/
def semResult (e : JournalEntry) (s : JNum) : SearchResult :=
  { date := e.date, day := e.day, text := e.text, timestamp := e.timestamp,
    similarity_score := some s }

/-- `documents = this.journalLogs.map(entry => entry.text)`. -/
def semDocs (logs : List JournalEntry) : List String := logs.map (fun e => e.text)

/-- The tokenized documents. -/
def semDocToks (logs : List JournalEntry) : List (List (List Char)) :=
  (semDocs logs).map tokenize

/-- The shared vocabulary: all document tokens, then all query tokens. -/
def semVocab (logs : List JournalEntry) (query : String) : List (List Char) :=
  buildVocab ((semDocToks logs).flatten ++ tokenize query)

/-- The query vector of `performSemanticSearch`. -/
def semQueryVec (L : ℚ → ℚ) (logs : List JournalEntry) (query : String) : List JNum :=
  queryVector L (semDocs logs).length (semDocToks logs) (semVocab logs query)
    (tokenize query)

/-- The vector of document `i` in `performSemanticSearch`. -/
def semDocVec (L : ℚ → ℚ) (logs : List JournalEntry) (query : String) (i : ℕ) :
    List JNum :=
  docVector L (semDocs logs).length (semDocToks logs) (semVocab logs query) i

/-- The `(index, similarity)` pairs of `performSemanticSearch`. -/
def semSims (L : ℚ → ℚ) (logs : List JournalEntry) (query : String) :
    List (ℕ × JNum) :=
  (List.range (semDocs logs).length).map
    (fun i => (i, cosineSimilarity (semQueryVec L logs query) (semDocVec L logs query i)))

/-- `performSemanticSearch(query, topK)`. -/
def performSemanticSearch (L : ℚ → ℚ) (logs : List JournalEntry) (query : String)
    (topK : ℕ) : List SearchResult :=
  if logs.length = 0 then [] else
  ((jsSort (fun p => p.2) (semSims L logs query)).take topK).map
    (fun p => semResult (logs.getD p.1 blankEntry) p.2)

/-! ### Keyword search -/

/-- The score loop of `performKeywordSearch`: for each query word, add the
raw occurrence count; additionally, inside that same per-word loop, add
`queryWords.length` whenever the lowercased text contains the full
lowercased query. -/
def keywordScoreOf (queryWords : List (List Char)) (lcQuery lcText : List Char) : ℕ :=
  queryWords.foldl
    (fun score w =>
      let withMatches := score + countOccs w lcText
      if containsSub lcQuery lcText then withMatches + queryWords.length
      else withMatches)
    0

/-- Result constructor `{ ...entry, keyword_score }`. -/
def kwResult (queryWords : List (List Char)) (lcQuery : List Char)
    (e : JournalEntry) : SearchResult :=
  { date := e.date, day := e.day, text := e.text, timestamp := e.timestamp,
    keyword_score := some (.fin (keywordScoreOf queryWords lcQuery (lowerData e.text) : ℚ)) }

/-- The scored list of `performKeywordSearch`, before filtering. -/
def kwScoredList (logs : List JournalEntry) (query : String) : List SearchResult :=
  logs.map (kwResult (tokenize query) (lowerData query))

/-- `performKeywordSearch(query, topK)`: score, keep `keyword_score > 0`,
sort descending, truncate. -/
def performKeywordSearch (logs : List JournalEntry) (query : String)
    (topK : ℕ) : List SearchResult :=
  if logs.length = 0 then [] else
  ((jsSort (fun r => r.keyword_score.getD .nan)
      ((kwScoredList logs query).filter
        (fun r => jltB (.fin 0) (r.keyword_score.getD .nan)))).take topK)

/-! ### BM25 search

All numbers in this component stay finite: the idf argument is a positive
rational, and the one division whose denominator could be zero
(`docLength / avgDocLength`) sits under `tf > 0`, which forces a positive
total token count.  It is therefore modelled directly in `ℚ` (whose
`x / 0 = 0` convention is never exercised on an executed path).  `K` is
computed once per document instead of once per query term; it does not
depend on the term, so the value is identical. -/

def bm25K1 : ℚ := 3 / 2

def bm25B : ℚ := 3 / 4

/-- One query term's contribution to a document's BM25 score, including the
`tf > 0` guard. -/
def bm25TermPiece (idfT : ℚ) (tf : ℕ) (K : ℚ) : ℚ :=
  if 0 < tf then idfT * (((tf : ℚ) * (bm25K1 + 1)) / ((tf : ℚ) + K)) else 0

/-- A document's BM25 score: the fold over the tokenized query
(duplicated query terms contribute once per occurrence, as in the source). -/
def bm25DocScore (idfF : List Char → ℚ) (tfF : List Char → ℕ) (K : ℚ)
    (queryTerms : List (List Char)) : ℚ :=
  queryTerms.foldl (fun s t => s + bm25TermPiece (idfF t) (tfF t) K) 0

/-- `idf[term] = Math.log((docCount - df + 0.5) / (df + 0.5))`.  The source
precomputes this only for query terms; as a function it is extensionally
the same on every term that is looked up. -/
def bm25Idf (L : ℚ → ℚ) (logs : List JournalEntry) (t : List Char) : ℚ :=
  let docCount := logs.length
  let df := (logs.filter (fun e => (tokenize e.text).contains t)).length
  L (((docCount : ℚ) - (df : ℚ) + 1/2) / ((df : ℚ) + 1/2))

/-- `docLengths = this.journalLogs.map(entry => this.tokenize(entry.text).length)`. -/
def bm25DocLengths (logs : List JournalEntry) : List ℕ :=
  logs.map (fun e => (tokenize e.text).length)

/-- `avgDocLength`: mean tokenized length (`N ≥ 1` whenever it is used). -/
def bm25Avg (logs : List JournalEntry) : ℚ :=
  ((bm25DocLengths logs).sum : ℚ) / ((bm25DocLengths logs).length : ℚ)

/-- One scored entry of `performBM25Search` (the `K` factor is identical
for every query term of a fixed document, so it is computed once). -/
def bm25EntryResult (L : ℚ → ℚ) (logs : List JournalEntry) (query : String)
    (e : JournalEntry) : SearchResult :=
  { date := e.date, day := e.day, text := e.text, timestamp := e.timestamp,
    bm25_score := some (bm25DocScore (bm25Idf L logs)
      (fun t => (tokenize e.text).count t)
      (bm25K1 * (1 - bm25B + bm25B * (((tokenize e.text).length : ℚ) / bm25Avg logs)))
      (tokenize query)) }

/-- The scored list of `performBM25Search`, before filtering. -/
def bm25ScoredList (L : ℚ → ℚ) (logs : List JournalEntry) (query : String) :
    List SearchResult :=
  logs.map (bm25EntryResult L logs query)

/-- `performBM25Search(query, topK)`. -/
def performBM25Search (L : ℚ → ℚ) (logs : List JournalEntry) (query : String)
    (topK : ℕ) : List SearchResult :=
  if logs.length = 0 then [] else
  ((jsSort (fun r => .fin (r.bm25_score.getD 0))
      ((bm25ScoredList L logs query).filter
        (fun r => decide (0 < r.bm25_score.getD 0)))).take topK)

/-! ### Hybrid search -/

/-- Insertion-ordered `Map.set`: replace in place on an existing key,
append otherwise. -/
def mapSet (k : String) (v : SearchResult) :
    List (String × SearchResult) → List (String × SearchResult)
  | [] => [(k, v)]
  | (k', v') :: rest => if k' = k then (k, v) :: rest else (k', v') :: mapSet k v rest

/-- `Map.has`. -/
def mapHasKey (k : String) (m : List (String × SearchResult)) : Bool :=
  m.any (fun p => p.1 == k)

/-- `Map.get` (partial in JavaScript; `Option`-valued here). -/
def mapLookup (k : String) : List (String × SearchResult) → Option SearchResult
  | [] => none
  | (k', v) :: rest => if k' = k then some v else mapLookup k rest

/-- In-place mutation of the stored object at a key (the collision branch
of `performHybridSearch` assigns to `existing.hybrid_score`). -/
def mapUpdate (k : String) (f : SearchResult → SearchResult) :
    List (String × SearchResult) → List (String × SearchResult)
  | [] => []
  | (k', v) :: rest => if k' = k then (k', f v) :: rest else (k', v) :: mapUpdate k f rest

/-- `Map.values` in insertion order. -/
def mapValues (m : List (String × SearchResult)) : List SearchResult :=
  m.map (fun p => p.2)

/-- The merge key `` `${date}_${day}` ``. -/
def hybridKey (r : SearchResult) : String := r.date ++ "_" ++ r.day

/-- `Math.max(...semanticResults.map(r => r.similarity_score || 0))`. -/
def hybridMaxSem (semRes : List SearchResult) : JNum :=
  jmaxList (semRes.map (fun r => orZero r.similarity_score))

/-- `Math.max(...keywordResults.map(r => r.keyword_score || 0))`. -/
def hybridMaxKw (kwRes : List SearchResult) : JNum :=
  jmaxList (kwRes.map (fun r => orZero r.keyword_score))

/-- The guarded semantic normalization of `performHybridSearch`:
`maxSemanticScore > 0 ? (result.similarity_score || 0) / maxSemanticScore : 0`. -/
def hybridNormSem (maxSem : JNum) (r : SearchResult) : JNum :=
  if jltB (.fin 0) maxSem then jdiv (orZero r.similarity_score) maxSem else .fin 0

/-- The guarded keyword normalization of `performHybridSearch`:
`maxKeywordScore > 0 ? (result.keyword_score || 0) / maxKeywordScore : 0`. -/
def hybridNormKw (maxKw : JNum) (r : SearchResult) : JNum :=
  if jltB (.fin 0) maxKw then jdiv (orZero r.keyword_score) maxKw else .fin 0

/-- First loop of `performHybridSearch`: seed the map from a semantic
result, with the guarded normalization and
`hybrid_score = alpha * normSem + (1 - alpha) * 0`. -/
def hybridSemStep (alpha : ℚ) (maxSem : JNum) (m : List (String × SearchResult))
    (r : SearchResult) : List (String × SearchResult) :=
  let normSem := hybridNormSem maxSem r
  mapSet (hybridKey r)
    { r with
        hybrid_score := some (jadd (jmul (.fin alpha) normSem)
          (jmul (.fin (1 - alpha)) (.fin 0))) } m

/-- Second loop of `performHybridSearch`: on a key collision, recompute the
stored object's `hybrid_score` as
`alpha * (existing.similarity_score || 0) / maxSemanticScore + (1 - alpha) * normKeyword`
— note the division here is NOT guarded by `maxSemanticScore > 0`, unlike
the first loop; otherwise insert the keyword result with
`hybrid_score = alpha * 0 + (1 - alpha) * normKeyword`. -/
def hybridKwStep (alpha : ℚ) (maxSem maxKw : JNum) (m : List (String × SearchResult))
    (r : SearchResult) : List (String × SearchResult) :=
  let normKw := hybridNormKw maxKw r
  if mapHasKey (hybridKey r) m then
    mapUpdate (hybridKey r)
      (fun ex =>
        { ex with
            hybrid_score := some (jadd
              (jmul (.fin alpha) (jdiv (orZero ex.similarity_score) maxSem))
              (jmul (.fin (1 - alpha)) normKw)) }) m
  else
    mapSet (hybridKey r)
      { r with
          hybrid_score := some (jadd (jmul (.fin alpha) (.fin 0))
            (jmul (.fin (1 - alpha)) normKw)) } m

/-- The merged map of `performHybridSearch`. -/
def hybridMap (L : ℚ → ℚ) (logs : List JournalEntry) (query : String)
    (topK : ℕ) (alpha : ℚ) : List (String × SearchResult) :=
  (performKeywordSearch logs query (topK * 2)).foldl
    (hybridKwStep alpha (hybridMaxSem (performSemanticSearch L logs query (topK * 2)))
      (hybridMaxKw (performKeywordSearch logs query (topK * 2))))
    ((performSemanticSearch L logs query (topK * 2)).foldl
      (hybridSemStep alpha (hybridMaxSem (performSemanticSearch L logs query (topK * 2))))
      [])

/-- `performHybridSearch(query, topK, alpha)`: run both sub-searches with
`topK * 2`, merge, sort by `(b.hybrid_score || 0) - (a.hybrid_score || 0)`,
truncate to `topK`. -/
def performHybridSearch (L : ℚ → ℚ) (logs : List JournalEntry) (query : String)
    (topK : ℕ) (alpha : ℚ) : List SearchResult :=
  ((jsSort (fun r => orZero r.hybrid_score)
      (mapValues (hybridMap L logs query topK alpha))).take topK)

/-! ### Result combiner -/

/-- The combiner's identity key: `` `${date}_${text.substring(0, 50)}` ``. -/
def combineKey (r : SearchResult) : String :=
  r.date ++ "_" ++ String.mk (r.text.data.take 50)

/-- First loop of `combineSearchResults`: insert every semantic result,
tagged `semantic` (later same-key semantic results replace earlier ones). -/
def combineSemStep (m : List (String × SearchResult)) (r : SearchResult) :
    List (String × SearchResult) :=
  mapSet (combineKey r) { r with searchType := some .semantic } m

/-- Second loop of `combineSearchResults`: insert a keyword result, tagged
`keyword`, only when its key is absent. -/
def combineKwStep (m : List (String × SearchResult)) (r : SearchResult) :
    List (String × SearchResult) :=
  if mapHasKey (combineKey r) m then m
  else mapSet (combineKey r) { r with searchType := some .keyword } m

/-- The combiner's merged map. -/
def combineMap (semRes kwRes : List SearchResult) : List (String × SearchResult) :=
  kwRes.foldl combineKwStep (semRes.foldl combineSemStep [])

/-- `combineSearchResults(semanticResults, keywordResults)`: semantic
first and winning on collisions, keyword only into absent keys, at most 5
results. -/
def combineSearchResults (semRes kwRes : List SearchResult) : List SearchResult :=
  (mapValues (combineMap semRes kwRes)).take 5

/-! ### Concrete instances used by closed evaluations -/

/-- A concrete stand-in for `Math.log` with the sign behaviour of `ln`:
negative below 1, zero at 1, positive above 1.  Closed counterexamples and
witnesses use it; general theorems keep `L` abstract. -/
def signLog (q : ℚ) : ℚ := if 1 < q then 1 else if q = 1 then 0 else -1

/-- Fixture: an entry whose text contains "running" as a single token. -/
def entryRun : JournalEntry :=
  { date := "2024-01-01", day := "Monday", text := "running" }

/-- Fixture: an entry about coffee. -/
def entryCoffee : JournalEntry :=
  { date := "2024-01-02", day := "Tuesday", text := "coffee" }

/-- Fixture: an entry about walking. -/
def entryWalk : JournalEntry :=
  { date := "2024-01-03", day := "Wednesday", text := "walking" }

/-- Fixture: three one-word entries. -/
def corpus3 : List JournalEntry := [entryRun, entryCoffee, entryWalk]

/-- Fixture: an entry with two tokens. -/
def entryRunToday : JournalEntry :=
  { date := "2024-01-01", day := "Monday", text := "running today" }

/-- Fixture: an entry whose text is exactly the two-token query used in the
phrase-bonus counterexample. -/
def entryRunFast : JournalEntry :=
  { date := "2024-01-04", day := "Thursday", text := "running fast" }

/-- Fixture: one document whose text is "foo bar" (term frequency 1 for
"foo", token length 2). -/
def entryFooBar : JournalEntry :=
  { date := "2024-02-01", day := "Thursday", text := "foo bar" }

/-- Fixture: one document whose text is "foo foo" (term frequency 2 for
"foo", token length 2 — same length, same corpus statistics). -/
def entryFooFoo : JournalEntry :=
  { date := "2024-02-01", day := "Thursday", text := "foo foo" }

/-- Fixture: the top hybrid result for `corpus3` / "running" with
`alpha = 1`: the "running" entry with similarity 1 and hybrid score 1. -/
def hybridTopRun : SearchResult :=
  { date := "2024-01-01", day := "Monday", text := "running",
    similarity_score := some (.fin 1), hybrid_score := some (.fin 1) }

/-- A number that is not an infinity: `nan` or finite.  Every value the
pipeline stores in a `similarity_score` satisfies this. -/
def NotInf (x : JNum) : Prop := x = .nan ∨ ∃ q : ℚ, x = .fin q

/-!
## Theorems

Everything from here on is a statement about the definitions above.
Helper lemmas come first, then one theorem per claim of the specification
(plus closed counterexamples and witnesses).
-/

/-! ### Arithmetic helper lemmas for `JNum` -/

theorem jmul_one_left (x : JNum) : jmul (.fin 1) x = x := by
  cases x <;> simp [jmul] <;> norm_num

theorem jmul_zero_fin (q : ℚ) : jmul (.fin 0) (.fin q) = .fin 0 := by
  simp [jmul]

theorem jadd_zero_right (x : JNum) : jadd x (.fin 0) = x := by
  cases x <;> simp [jadd]

theorem jadd_zero_left (x : JNum) : jadd (.fin 0) x = x := by
  cases x <;> simp [jadd]

/-! ### Sorting and indexing helper lemmas -/

theorem jsSort_perm {α : Type} (f : α → JNum) (l : List α) : (jsSort f l).Perm l :=
  List.perm_insertionSort _ l

theorem mem_jsSort {α : Type} {f : α → JNum} {l : List α} {a : α} :
    a ∈ jsSort f l ↔ a ∈ l :=
  (jsSort_perm f l).mem_iff

theorem length_jsSort {α : Type} (f : α → JNum) (l : List α) :
    (jsSort f l).length = l.length :=
  (jsSort_perm f l).length_eq

theorem getD_range_map {α : Type} (l : List α) (d : α) :
    (List.range l.length).map (fun i => l.getD i d) = l := by
  induction l with
  | nil => simp
  | cons a t ih =>
      rw [List.length_cons, List.range_succ_eq_map, List.map_cons, List.map_map]
      have hc : ((fun i => (a :: t).getD i d) ∘ Nat.succ) = (fun i => t.getD i d) := by
        funext i
        simp [List.getD_cons_succ]
      rw [List.getD_cons_zero, hc, ih]

/-! ### Claim C6: empty corpus gives empty output everywhere -/

/-- C6: for every query, `topK` and `alpha`, each of the four search
operations returns the empty list on the empty corpus (and, being total
functions, they raise nothing). -/
theorem c6_empty_corpus (L : ℚ → ℚ) (q : String) (k : ℕ) (α : ℚ) :
    performSemanticSearch L [] q k = [] ∧ performKeywordSearch [] q k = [] ∧
    performBM25Search L [] q k = [] ∧ performHybridSearch L [] q k α = [] := by
  refine ⟨rfl, rfl, rfl, ?_⟩
  show (jsSort _ (mapValues (hybridMap L [] q k α))).take k = []
  have h : hybridMap L [] q k α = [] := rfl
  rw [h]
  exact List.take_nil

/-! ### Claim C5: determinism -/

/-- C5: every search operation is a pure function of the corpus, query,
`topK` and `alpha`: calls on identical inputs produce identical ranked
output (scores and order included).  In the source this holds because the
class's only state, `journalLogs`, is assigned once in the constructor and
never mutated, and `Promise.all` merely joins two independent pure
computations. -/
theorem c5_determinism (L : ℚ → ℚ) (c₁ c₂ : List JournalEntry) (q₁ q₂ : String)
    (k₁ k₂ : ℕ) (α₁ α₂ : ℚ) (hc : c₁ = c₂) (hq : q₁ = q₂) (hk : k₁ = k₂)
    (hα : α₁ = α₂) :
    performSemanticSearch L c₁ q₁ k₁ = performSemanticSearch L c₂ q₂ k₂ ∧
    performKeywordSearch c₁ q₁ k₁ = performKeywordSearch c₂ q₂ k₂ ∧
    performBM25Search L c₁ q₁ k₁ = performBM25Search L c₂ q₂ k₂ ∧
    performHybridSearch L c₁ q₁ k₁ α₁ = performHybridSearch L c₂ q₂ k₂ α₂ := by
  subst hc; subst hq; subst hk; subst hα
  exact ⟨rfl, rfl, rfl, rfl⟩

/-- Witness for C5 at a concrete corpus and query. -/
theorem c5_witness :
    performSemanticSearch signLog corpus3 "running" 5 =
      performSemanticSearch signLog corpus3 "running" 5 ∧
    performKeywordSearch corpus3 "running" 5 = performKeywordSearch corpus3 "running" 5 ∧
    performBM25Search signLog corpus3 "running" 5 =
      performBM25Search signLog corpus3 "running" 5 ∧
    performHybridSearch signLog corpus3 "running" 5 (1/2) =
      performHybridSearch signLog corpus3 "running" 5 (1/2) :=
  c5_determinism signLog corpus3 corpus3 "running" "running" 5 5 (1/2) (1/2)
    rfl rfl rfl rfl

/-! ### Claim C1: the unguarded division in the hybrid collision branch -/

/-- C1 (failing evaluation): on the one-entry corpus whose text is
"running" and the query "run", the entry's cosine similarity is exactly 0
(the query vector is the zero vector), so `maxSemanticScore = 0`; the entry
is nevertheless a keyword hit (score 2), and the collision branch of
`performHybridSearch` computes `alpha * (0 / 0) + ... = NaN`.  The returned
`hybrid_score` is NaN — not a number in `[0, 1]` — refuting the guarantee
for `alpha = 1/2 ∈ [0, 1]`. -/
theorem c1_hybrid_score_nan :
    (performHybridSearch signLog [entryRun] "run" 5 (1/2)).map
      (fun r => r.hybrid_score) = [some JNum.nan] ∧
    (performSemanticSearch signLog [entryRun] "run" 10).map
      (fun r => r.similarity_score) = [some (JNum.fin 0)] ∧
    (performKeywordSearch [entryRun] "run" 10).map
      (fun r => r.keyword_score) = [some (JNum.fin 2)] :=
  ⟨by with_unfolding_all rfl, by with_unfolding_all rfl, by with_unfolding_all rfl⟩

/-! ### Claim C3: empty-token query makes the vector scorer produce NaN -/

/-- C3 (failing evaluation): the query "!!" tokenizes to the empty
sequence, so the query-vector term frequency is the JavaScript division
`0 / 0 = NaN`; the NaN passes the `normA === 0` guard and the returned
`similarity_score` is NaN, not the claimed 0. -/
theorem c3_semantic_nan :
    tokenize "!!" = [] ∧
    (performSemanticSearch signLog [entryRunToday] "!!" 5).map
      (fun r => r.similarity_score) = [some JNum.nan] :=
  ⟨by with_unfolding_all rfl, by with_unfolding_all rfl⟩

/-! ### Claim C2: the phrase bonus is added once per query token -/

/-- C2 (counterexample): for the entry and query "running fast" (two
tokens, each occurring once), the claimed score — occurrence sum plus a
single bonus of `queryWords.length` — is `1 + 1 + 2 = 4`, but
`performKeywordSearch` returns 6: the bonus is added inside the per-token
loop, once for each of the two tokens. -/
theorem c2_counterexample :
    (performKeywordSearch [entryRunFast] "running fast" 5).map
      (fun r => r.keyword_score) = [some (JNum.fin 6)] ∧
    ((tokenize "running fast").map
        (fun w => countOccs w (lowerData (entryRunFast.text)))).sum +
      (tokenize "running fast").length = 4 :=
  ⟨by with_unfolding_all rfl, by with_unfolding_all rfl⟩

/-- Helper: closed form of the keyword scoring fold. -/
theorem keywordScore_fold (lcQ lcT : List Char) (B : ℕ) (l : List (List Char)) :
    ∀ s : ℕ,
      l.foldl (fun score w =>
        let withMatches := score + countOccs w lcT
        if containsSub lcQ lcT then withMatches + B else withMatches) s =
      s + ((l.map (fun w => countOccs w lcT)).sum +
        (if containsSub lcQ lcT then l.length * B else 0)) := by
  induction l with
  | nil => intro s; simp
  | cons w l ih =>
      intro s
      rw [List.foldl_cons, ih]
      by_cases h : containsSub lcQ lcT
      · simp [h]
        ring
      · simp [h]
        ring

/-- C2 (amended): for every entry text and query, the keyword score equals
the sum over the query tokens of the raw occurrence counts, plus — once per
query token, hence `(number of query tokens)²` in total — a bonus of the
number of query tokens whenever the lowercased text contains the full
lowercased query as a contiguous substring. -/
theorem c2_keyword_score_formula (queryWords : List (List Char)) (lcQuery lcText : List Char) :
    keywordScoreOf queryWords lcQuery lcText =
      (queryWords.map (fun w => countOccs w lcText)).sum +
        (if containsSub lcQuery lcText then queryWords.length * queryWords.length else 0) := by
  have h := keywordScore_fold lcQuery lcText queryWords.length queryWords 0
  simpa [keywordScoreOf] using h

/-! ### Claim C7: BM25 monotonicity in term frequency -/

/-- C7 (counterexample): two one-document corpora with the same tokenized
document length (2), the same corpus size (1) and the same document
frequency for the query term "foo" (1, hence the same — negative — idf).
Raising the raw term frequency of "foo" from 1 to 2 strictly lowers the
BM25 score: it falls from -1 to -10/7.  The claim fails for terms whose
idf is negative. -/
theorem c7_counterexample :
    (bm25ScoredList signLog [entryFooBar] "foo").map (fun r => r.bm25_score) =
      [some (-1)] ∧
    (bm25ScoredList signLog [entryFooFoo] "foo").map (fun r => r.bm25_score) =
      [some (-10/7)] ∧
    (tokenize entryFooBar.text).count (['f','o','o']) = 1 ∧
    (tokenize entryFooFoo.text).count (['f','o','o']) = 2 ∧
    (tokenize entryFooBar.text).length = (tokenize entryFooFoo.text).length ∧
    bm25Idf signLog [entryFooBar] ['f','o','o'] =
      bm25Idf signLog [entryFooFoo] ['f','o','o'] ∧
    ((-10/7 : ℚ) < -1) := by
  refine ⟨?_, ?_, ?_, ?_, ?_, ?_, ?_⟩ <;>
    first
      | with_unfolding_all rfl
      | norm_num

/-- Helper: a foldl of rational additions is a sum. -/
theorem foldl_add_eq_sum (f : List Char → ℚ) (l : List (List Char)) :
    ∀ s : ℚ, l.foldl (fun acc t => acc + f t) s = s + (l.map f).sum := by
  induction l with
  | nil => intro s; simp
  | cons t l ih => intro s; simp [ih, add_assoc]

/-- Helper: `bm25DocScore` as a sum over the query terms. -/
theorem bm25DocScore_eq_sum (idfF : List Char → ℚ) (tfF : List Char → ℕ) (K : ℚ)
    (qts : List (List Char)) :
    bm25DocScore idfF tfF K qts =
      (qts.map (fun t => bm25TermPiece (idfF t) (tfF t) K)).sum := by
  have h := foldl_add_eq_sum (fun t => bm25TermPiece (idfF t) (tfF t) K) qts 0
  simpa [bm25DocScore] using h

/-- Helper: a single term's BM25 contribution is monotone in the raw term
frequency whenever its idf is nonnegative. -/
theorem bm25TermPiece_mono (idfT K : ℚ) (a b : ℕ) (hidf : 0 ≤ idfT) (hK : 0 < K)
    (hab : a ≤ b) : bm25TermPiece idfT a K ≤ bm25TermPiece idfT b K := by
  have hk1 : (0 : ℚ) < bm25K1 + 1 := by norm_num [bm25K1]
  unfold bm25TermPiece
  rcases Nat.eq_zero_or_pos a with ha | ha
  · subst ha
    simp only [lt_irrefl, if_false]
    rcases Nat.eq_zero_or_pos b with hb | hb
    · subst hb; simp
    · rw [if_pos hb]
      have hbq : (0 : ℚ) ≤ (b : ℚ) := Nat.cast_nonneg b
      have hden : (0 : ℚ) < (b : ℚ) + K := by positivity
      exact mul_nonneg hidf (div_nonneg (mul_nonneg hbq hk1.le) hden.le)
  · have hb : 0 < b := lt_of_lt_of_le ha hab
    rw [if_pos ha, if_pos hb]
    apply mul_le_mul_of_nonneg_left _ hidf
    have haq : (0 : ℚ) < (a : ℚ) := by exact_mod_cast ha
    have hbq : (0 : ℚ) < (b : ℚ) := by exact_mod_cast hb
    have hab' : (a : ℚ) ≤ (b : ℚ) := by exact_mod_cast hab
    rw [div_le_div_iff (by positivity) (by positivity)]
    nlinarith [mul_nonneg (mul_nonneg (sub_nonneg.mpr hab') hK.le) hk1.le]

/-- C7 (amended): the BM25 document score is monotonically non-decreasing
in a single query term's raw term frequency — holding `K` (that is, the
document's tokenized length and the average document length), the idf
values and all other term frequencies fixed — provided that term's idf is
nonnegative, i.e. `df ≤ N/2` up to the 0.5 smoothing.  For negative idf
(`df > N/2`) the contribution is decreasing, as the counterexample shows. -/
theorem c7_bm25_monotone (idfF : List Char → ℚ) (tf1 tf2 : List Char → ℕ) (K : ℚ)
    (qts : List (List Char)) (t0 : List Char)
    (hidf : ∀ t ∈ qts, 0 ≤ idfF t) (hK : 0 < K)
    (hoth : ∀ t ∈ qts, t ≠ t0 → tf1 t = tf2 t) (ht0 : tf1 t0 ≤ tf2 t0) :
    bm25DocScore idfF tf1 K qts ≤ bm25DocScore idfF tf2 K qts := by
  rw [bm25DocScore_eq_sum, bm25DocScore_eq_sum]
  apply List.sum_le_sum
  intro t ht
  by_cases h : t = t0
  · subst h
    exact bm25TermPiece_mono _ _ _ _ (hidf t ht) hK ht0
  · rw [hoth t ht h]

/-- Helper: indexing inside the bounds lands in the list. -/
theorem getD_mem {α : Type} : ∀ (l : List α) (i : ℕ) (d : α), i < l.length →
    l.getD i d ∈ l := by
  intro l
  induction l with
  | nil => intro i d h; simp at h
  | cons a t ih =>
      intro i d h
      cases i with
      | zero => rw [List.getD_cons_zero]; exact List.mem_cons_self a t
      | succ j =>
          rw [List.getD_cons_succ]
          exact List.mem_cons_of_mem a (ih j d (by simpa using h))

/-- Helper: mapping an enumerated list back through indexing restores it. -/
theorem map_fst_getD {α β : Type} (c : List α) (d : α) (g : ℕ → β) :
    ((List.range c.length).map (fun i => (i, g i))).map
      (fun p => c.getD p.1 d) = c := by
  rw [List.map_map]
  have h1 : ((fun p : ℕ × β => c.getD p.1 d) ∘ fun i => (i, g i)) =
      fun i => c.getD i d := rfl
  rw [h1, getD_range_map]

/-- Helper: the guarded branch of `performSemanticSearch` on a non-empty
corpus. -/
theorem performSemanticSearch_eq (L : ℚ → ℚ) (c : List JournalEntry) (q : String)
    (k : ℕ) (h : c.length ≠ 0) :
    performSemanticSearch L c q k =
      ((jsSort (fun p : ℕ × JNum => p.2) (semSims L c q)).take k).map
        (fun p => semResult (c.getD p.1 blankEntry) p.2) := by
  unfold performSemanticSearch
  rw [if_neg h]

/-- Helper: the guarded branch of `performKeywordSearch` on a non-empty
corpus. -/
theorem performKeywordSearch_eq (c : List JournalEntry) (q : String) (k : ℕ)
    (h : c.length ≠ 0) :
    performKeywordSearch c q k =
      (jsSort (fun r => r.keyword_score.getD .nan)
        ((kwScoredList c q).filter
          (fun r => jltB (.fin 0) (r.keyword_score.getD .nan)))).take k := by
  unfold performKeywordSearch
  rw [if_neg h]

/-- Helper: the guarded branch of `performBM25Search` on a non-empty
corpus. -/
theorem performBM25Search_eq (L : ℚ → ℚ) (c : List JournalEntry) (q : String)
    (k : ℕ) (h : c.length ≠ 0) :
    performBM25Search L c q k =
      (jsSort (fun r => .fin (r.bm25_score.getD 0))
        ((bm25ScoredList L c q).filter
          (fun r => decide (0 < r.bm25_score.getD 0)))).take k := by
  unfold performBM25Search
  rw [if_neg h]

/-- Helper: `semSims` enumerates one pair per corpus document. -/
theorem length_semSims (L : ℚ → ℚ) (c : List JournalEntry) (q : String) :
    (semSims L c q).length = c.length := by
  simp [semSims, semDocs]

/-- C10: on a non-empty corpus with `topK ≥ N`, `performSemanticSearch`
returns exactly one result per corpus document — zero-similarity documents
are never filtered out, the output entries are a permutation of the corpus
— whereas `performKeywordSearch` and `performBM25Search` only return
results whose score is strictly positive. -/
theorem c10_semantic_no_filter (L : ℚ → ℚ) (c : List JournalEntry) (q : String)
    (k k₁ k₂ : ℕ) (hne : c ≠ []) (hk : c.length ≤ k) :
    (performSemanticSearch L c q k).length = c.length ∧
    ((performSemanticSearch L c q k).map toEntry).Perm c ∧
    (∀ r ∈ performKeywordSearch c q k₁,
      jltB (.fin 0) (r.keyword_score.getD .nan) = true) ∧
    (∀ r ∈ performBM25Search L c q k₂, 0 < r.bm25_score.getD 0) := by
  have hlen0 : c.length ≠ 0 := fun h => hne (List.length_eq_zero.mp h)
  have hperm := jsSort_perm (fun p : ℕ × JNum => p.2) (semSims L c q)
  have htake : (jsSort (fun p : ℕ × JNum => p.2) (semSims L c q)).take k =
      jsSort (fun p : ℕ × JNum => p.2) (semSims L c q) :=
    List.take_of_length_le (by rw [length_jsSort, length_semSims]; exact hk)
  have hout : performSemanticSearch L c q k =
      (jsSort (fun p : ℕ × JNum => p.2) (semSims L c q)).map
        (fun p => semResult (c.getD p.1 blankEntry) p.2) := by
    rw [performSemanticSearch_eq L c q k hlen0, htake]
  have hEq : (semSims L c q).map (fun p : ℕ × JNum => c.getD p.1 blankEntry) = c := by
    unfold semSims
    have hl : (semDocs c).length = c.length := by simp [semDocs]
    rw [hl]
    exact map_fst_getD c blankEntry _
  refine ⟨?_, ?_, ?_, ?_⟩
  · rw [hout, List.length_map, length_jsSort, length_semSims]
  · rw [hout, List.map_map]
    have hcomp : (toEntry ∘ fun p : ℕ × JNum => semResult (c.getD p.1 blankEntry) p.2) =
        fun p : ℕ × JNum => c.getD p.1 blankEntry := rfl
    rw [hcomp]
    refine (hperm.map (fun p : ℕ × JNum => c.getD p.1 blankEntry)).trans ?_
    rw [hEq]
  · intro r hr
    rw [performKeywordSearch_eq c q k₁ hlen0] at hr
    exact (List.mem_filter.mp (mem_jsSort.mp (List.take_subset _ _ hr))).2
  · intro r hr
    rw [performBM25Search_eq L c q k₂ hlen0] at hr
    exact of_decide_eq_true
      (List.mem_filter.mp (mem_jsSort.mp (List.take_subset _ _ hr))).2

/-- Witness for C10 on the three-entry corpus. -/
theorem c10_witness :
    corpus3 ≠ [] ∧ corpus3.length ≤ 5 ∧
    (performSemanticSearch signLog corpus3 "running" 5).length = corpus3.length := by
  refine ⟨by decide, by decide, ?_⟩
  exact (c10_semantic_no_filter signLog corpus3 "running" 5 5 5 (by decide) (by decide)).1

/-- Witness for C7 (amended) at concrete data: idf 1, `K = 3/2`, term
frequency raised from 1 to 2. -/
theorem c7_witness :
    (0 : ℚ) < 3/2 ∧
    bm25DocScore (fun _ => 1) (fun _ => 1) (3/2) [['f','o','o']] ≤
      bm25DocScore (fun _ => 1) (fun _ => 2) (3/2) [['f','o','o']] := by
  constructor
  · norm_num
  · exact c7_bm25_monotone (fun _ => 1) (fun _ => 1) (fun _ => 2) (3/2)
      [['f','o','o']] ['f','o','o'] (fun t _ => by norm_num)
      (by norm_num) (fun t ht hne => absurd (by simpa using ht) hne)
      (by norm_num)

/-! ### Lemmas about the insertion-ordered map model -/

theorem mapLookup_mapSet_self (k : String) (v : SearchResult)
    (m : List (String × SearchResult)) : mapLookup k (mapSet k v m) = some v := by
  induction m with
  | nil => simp [mapSet, mapLookup]
  | cons p rest ih =>
      obtain ⟨a, b⟩ := p
      by_cases h : a = k
      · simp [mapSet, h, mapLookup]
      · simp [mapSet, h, mapLookup, ih]

theorem mapLookup_mapSet_other {k k' : String} (hne : k' ≠ k) (v : SearchResult)
    (m : List (String × SearchResult)) :
    mapLookup k' (mapSet k v m) = mapLookup k' m := by
  have hne' : ¬ k = k' := fun h => hne h.symm
  induction m with
  | nil => simp [mapSet, mapLookup, hne']
  | cons p rest ih =>
      obtain ⟨a, b⟩ := p
      by_cases h : a = k
      · subst h
        simp [mapSet, mapLookup, hne']
      · simp only [mapSet, if_neg h, mapLookup]
        by_cases h' : a = k'
        · simp [h']
        · simp [h', ih]

theorem mapHasKey_iff (k : String) (m : List (String × SearchResult)) :
    mapHasKey k m = true ↔ ∃ v, mapLookup k m = some v := by
  induction m with
  | nil => simp [mapHasKey, mapLookup]
  | cons p rest ih =>
      obtain ⟨a, b⟩ := p
      have hstep : mapHasKey k ((a, b) :: rest) = ((a == k) || mapHasKey k rest) := rfl
      rw [hstep]
      by_cases h : a = k
      · simp [mapLookup, h]
      · simp [mapLookup, h, ih]

theorem mapHasKey_mapSet_self (k : String) (v : SearchResult)
    (m : List (String × SearchResult)) : mapHasKey k (mapSet k v m) = true :=
  (mapHasKey_iff k _).mpr ⟨v, mapLookup_mapSet_self k v m⟩

theorem mapHasKey_mapSet_mono {k' : String} (k : String) (v : SearchResult)
    {m : List (String × SearchResult)} (h : mapHasKey k' m = true) :
    mapHasKey k' (mapSet k v m) = true := by
  by_cases hk : k' = k
  · subst hk; exact mapHasKey_mapSet_self k' v m
  · obtain ⟨w, hw⟩ := (mapHasKey_iff k' m).mp h
    exact (mapHasKey_iff k' _).mpr ⟨w, by rw [mapLookup_mapSet_other hk]; exact hw⟩

theorem mem_mapValues_mapSet {v' : SearchResult} (k : String) (v : SearchResult)
    (m : List (String × SearchResult)) (h : v' ∈ mapValues (mapSet k v m)) :
    v' = v ∨ v' ∈ mapValues m := by
  induction m with
  | nil => simpa [mapSet, mapValues] using h
  | cons p rest ih =>
      obtain ⟨a, b⟩ := p
      by_cases hak : a = k
      · simp only [mapSet, if_pos hak, mapValues, List.map_cons] at h
        rcases List.mem_cons.mp h with h | h
        · exact Or.inl h
        · exact Or.inr (by simp [mapValues]; right; simpa [mapValues] using h)
      · simp only [mapSet, if_neg hak, mapValues, List.map_cons] at h
        rcases List.mem_cons.mp h with h | h
        · exact Or.inr (by simp [mapValues, h])
        · rcases ih (by simpa [mapValues] using h) with h' | h'
          · exact Or.inl h'
          · exact Or.inr (by simp [mapValues] at h' ⊢; right; exact h')

theorem mapLookup_mem_values {k : String} {v : SearchResult}
    {m : List (String × SearchResult)} (h : mapLookup k m = some v) :
    v ∈ mapValues m := by
  induction m with
  | nil => simp [mapLookup] at h
  | cons p rest ih =>
      obtain ⟨a, b⟩ := p
      by_cases hak : a = k
      · simp only [mapLookup, if_pos hak] at h
        simp [mapValues, Option.some_inj.mp h]
      · simp only [mapLookup, if_neg hak] at h
        simp [mapValues]
        right
        simpa [mapValues] using ih h

theorem mem_mapSet_pairs {p : String × SearchResult} (k : String) (v : SearchResult)
    (m : List (String × SearchResult)) (h : p ∈ mapSet k v m) :
    p = (k, v) ∨ p ∈ m := by
  induction m with
  | nil => simpa [mapSet] using h
  | cons p' rest ih =>
      obtain ⟨a, b⟩ := p'
      by_cases hak : a = k
      · simp only [mapSet, if_pos hak] at h
        rcases List.mem_cons.mp h with h | h
        · exact Or.inl h
        · exact Or.inr (List.mem_cons_of_mem _ h)
      · simp only [mapSet, if_neg hak] at h
        rcases List.mem_cons.mp h with h | h
        · exact Or.inr (by simp [h])
        · rcases ih h with h' | h'
          · exact Or.inl h'
          · exact Or.inr (List.mem_cons_of_mem _ h')

theorem mem_mapUpdate_pairs {p : String × SearchResult} (k : String)
    (f : SearchResult → SearchResult) (m : List (String × SearchResult))
    (h : p ∈ mapUpdate k f m) :
    p ∈ m ∨ ∃ p' ∈ m, p'.1 = k ∧ p = (k, f p'.2) := by
  induction m with
  | nil => simpa [mapUpdate] using h
  | cons p' rest ih =>
      obtain ⟨a, b⟩ := p'
      by_cases hak : a = k
      · simp only [mapUpdate, if_pos hak] at h
        rcases List.mem_cons.mp h with h | h
        · exact Or.inr ⟨(a, b), by simp, hak, by rw [h, hak]⟩
        · exact Or.inl (List.mem_cons_of_mem _ h)
      · simp only [mapUpdate, if_neg hak] at h
        rcases List.mem_cons.mp h with h | h
        · exact Or.inl (by simp [h])
        · rcases ih h with h' | ⟨p'', hp'', hk'', hp⟩
          · exact Or.inl (List.mem_cons_of_mem _ h')
          · exact Or.inr ⟨p'', List.mem_cons_of_mem _ hp'', hk'', hp⟩

theorem mem_values_of_mem_pairs {p : String × SearchResult}
    {m : List (String × SearchResult)} (h : p ∈ m) : p.2 ∈ mapValues m :=
  List.mem_map.mpr ⟨p, h, rfl⟩

theorem mem_pairs_of_mem_values {v : SearchResult}
    {m : List (String × SearchResult)} (h : v ∈ mapValues m) :
    ∃ p ∈ m, p.2 = v := by
  obtain ⟨p, hp, he⟩ := List.mem_map.mp h
  exact ⟨p, hp, he⟩

theorem mem_mapValues_mapUpdate {v' : SearchResult} (k : String)
    (f : SearchResult → SearchResult) (m : List (String × SearchResult))
    (h : v' ∈ mapValues (mapUpdate k f m)) :
    v' ∈ mapValues m ∨ ∃ u ∈ mapValues m, v' = f u := by
  obtain ⟨p, hp, he⟩ := List.mem_map.mp h
  rcases mem_mapUpdate_pairs k f m hp with h' | ⟨p'', hp'', _, hpe⟩
  · exact Or.inl (he ▸ mem_values_of_mem_pairs h')
  · refine Or.inr ⟨p''.2, mem_values_of_mem_pairs hp'', ?_⟩
    rw [← he, hpe]

/-- Helper: a fold preserves an invariant preserved by every step. -/
theorem foldl_inv {β : Type} (Inv : β → Prop) (step : β → SearchResult → β)
    (l : List SearchResult) :
    ∀ m : β, Inv m → (∀ r ∈ l, ∀ m', Inv m' → Inv (step m' r)) →
      Inv (l.foldl step m) := by
  induction l with
  | nil => intro m hm _; simpa using hm
  | cons r l ih =>
      intro m hm hstep
      rw [List.foldl_cons]
      exact ih (step m r) (hstep r (List.mem_cons_self r l) m hm)
        (fun r' hr' => hstep r' (List.mem_cons_of_mem r hr'))

/-! ### Claim C8: the result combiner -/

/-- Helper: `mapSet`-style steps keep existing keys present. -/
theorem combineKwStep_hasKey_mono {k : String} (m : List (String × SearchResult))
    (r : SearchResult) (h : mapHasKey k m = true) :
    mapHasKey k (combineKwStep m r) = true := by
  unfold combineKwStep
  by_cases hh : mapHasKey (combineKey r) m
  · rwa [if_pos hh]
  · rw [if_neg hh]
    exact mapHasKey_mapSet_mono _ _ h

/-- Helper: a present binding survives `combineKwStep` unchanged. -/
theorem combineKwStep_preserves_lookup {k : String} {v : SearchResult}
    (m : List (String × SearchResult)) (r : SearchResult)
    (h : mapLookup k m = some v) : mapLookup k (combineKwStep m r) = some v := by
  unfold combineKwStep
  by_cases hh : mapHasKey (combineKey r) m
  · rwa [if_pos hh]
  · rw [if_neg hh]
    have hk : k ≠ combineKey r := by
      intro he
      exact hh (by rw [← he]; exact (mapHasKey_iff k m).mpr ⟨v, h⟩)
    rwa [mapLookup_mapSet_other hk]

/-- Helper: a fold whose steps keep keys present keeps keys present. -/
theorem foldl_hasKey_mono (step : List (String × SearchResult) → SearchResult →
      List (String × SearchResult))
    (hstep : ∀ m r (k : String), mapHasKey k m = true → mapHasKey k (step m r) = true)
    (l : List SearchResult) :
    ∀ (m : List (String × SearchResult)) (k : String), mapHasKey k m = true →
      mapHasKey k (l.foldl step m) = true := by
  induction l with
  | nil => intro m k h; simpa using h
  | cons r l ih =>
      intro m k h
      rw [List.foldl_cons]
      exact ih (step m r) k (hstep m r k h)

/-- Helper: every key of a processed semantic result is present after the
first combiner loop. -/
theorem combineSem_achieves (l : List SearchResult) :
    ∀ (m : List (String × SearchResult)) (s : SearchResult), s ∈ l →
      mapHasKey (combineKey s) (l.foldl combineSemStep m) = true := by
  induction l with
  | nil => intro m s hs; simp at hs
  | cons r l ih =>
      intro m s hs
      rw [List.foldl_cons]
      rcases List.mem_cons.mp hs with hs | hs
      · subst hs
        exact foldl_hasKey_mono combineSemStep
          (fun m' r' k h => mapHasKey_mapSet_mono _ _ h) l (combineSemStep m s)
          (combineKey s) (mapHasKey_mapSet_self _ _ m)
      · exact ih (combineSemStep m r) s hs

/-- C8: the combiner returns at most five results; every semantic input's
identity key is bound, in the merged map, to a semantic-tagged result
(semantic results are inserted first and win every collision); and every
keyword-tagged output arises from a keyword input whose key no semantic
input shares. -/
theorem c8_combine_contract (semRes kwRes : List SearchResult) :
    (combineSearchResults semRes kwRes).length ≤ 5 ∧
    (∀ s ∈ semRes, ∃ v, mapLookup (combineKey s) (combineMap semRes kwRes) = some v ∧
      v.searchType = some SType.semantic) ∧
    (∀ r ∈ combineSearchResults semRes kwRes, r.searchType = some SType.keyword →
      (∃ kw ∈ kwRes, r = { kw with searchType := some SType.keyword }) ∧
      (∀ s ∈ semRes, combineKey s ≠ combineKey r)) := by
  -- the two fold stages
  have hphase1 : ∀ v ∈ mapValues (semRes.foldl combineSemStep []),
      v.searchType = some SType.semantic := by
    intro v hv
    refine foldl_inv (fun m => ∀ v ∈ mapValues m, v.searchType = some SType.semantic)
      combineSemStep semRes [] (by simp [mapValues]) ?_ v hv
    intro r _ m' hm' w hw
    rcases mem_mapValues_mapSet _ _ m' hw with h | h
    · rw [h]
    · exact hm' w h
  -- invariant through the keyword loop
  have hinv : (∀ s ∈ semRes, mapHasKey (combineKey s) (combineMap semRes kwRes) = true) ∧
      (∀ v ∈ mapValues (combineMap semRes kwRes),
        v.searchType = some SType.keyword →
        (∃ kw ∈ kwRes, v = { kw with searchType := some SType.keyword }) ∧
        (∀ s ∈ semRes, combineKey s ≠ combineKey v)) := by
    refine foldl_inv
      (fun m => (∀ s ∈ semRes, mapHasKey (combineKey s) m = true) ∧
        (∀ v ∈ mapValues m, v.searchType = some SType.keyword →
          (∃ kw ∈ kwRes, v = { kw with searchType := some SType.keyword }) ∧
          (∀ s ∈ semRes, combineKey s ≠ combineKey v)))
      combineKwStep kwRes (semRes.foldl combineSemStep []) ⟨?_, ?_⟩ ?_
    · intro s hs
      exact combineSem_achieves semRes [] s hs
    · intro v hv htag
      have := hphase1 v hv
      rw [this] at htag
      exact absurd (Option.some_inj.mp htag) (by intro h; cases h)
    · rintro r hr m' ⟨hm1, hm2⟩
      constructor
      · intro s hs
        exact combineKwStep_hasKey_mono m' r (hm1 s hs)
      · intro v hv htag
        unfold combineKwStep at hv
        by_cases hh : mapHasKey (combineKey r) m'
        · rw [if_pos hh] at hv
          exact hm2 v hv htag
        · rw [if_neg hh] at hv
          rcases mem_mapValues_mapSet _ _ m' hv with h | h
          · subst h
            refine ⟨⟨r, hr, rfl⟩, ?_⟩
            intro s hs he
            have hkey : combineKey { r with searchType := some SType.keyword } =
                combineKey r := rfl
            rw [hkey] at he
            exact hh (by rw [← he]; exact hm1 s hs)
          · exact hm2 v h htag
  refine ⟨?_, ?_, ?_⟩
  · unfold combineSearchResults
    rw [List.length_take]
    exact min_le_left _ _
  · intro s hs
    have hk := hinv.1 s hs
    obtain ⟨v, hv⟩ := (mapHasKey_iff _ _).mp hk
    -- trace the binding back through the keyword loop: it was created in
    -- phase 1 and preserved, so it carries the semantic tag
    have hl : ∀ (l : List SearchResult) (m : List (String × SearchResult)) (w : SearchResult),
        mapLookup (combineKey s) m = some w →
        mapLookup (combineKey s) (l.foldl combineKwStep m) = some w := by
      intro l
      induction l with
      | nil => intro m w h; simpa using h
      | cons r' l' ih =>
          intro m w h
          rw [List.foldl_cons]
          exact ih _ w (combineKwStep_preserves_lookup m r' h)
    have hk1 := combineSem_achieves semRes [] s hs
    obtain ⟨w, hw⟩ := (mapHasKey_iff _ _).mp hk1
    have hw2 : mapLookup (combineKey s) (combineMap semRes kwRes) = some w :=
      hl kwRes _ w hw
    refine ⟨w, hw2, hphase1 w (mapLookup_mem_values hw)⟩
  · intro r hr htag
    have hrv : r ∈ mapValues (combineMap semRes kwRes) := by
      unfold combineSearchResults at hr
      exact List.take_subset _ _ hr
    exact hinv.2 r hrv htag

/-- Witness for C8 on concrete one-element inputs. -/
theorem c8_witness :
    (combineSearchResults [semResult entryRun (.fin 1)]
      [semResult entryCoffee (.fin 0)]).length ≤ 5 ∧
    (∃ v, mapLookup (combineKey (semResult entryRun (.fin 1)))
        (combineMap [semResult entryRun (.fin 1)] [semResult entryCoffee (.fin 0)]) =
        some v ∧ v.searchType = some SType.semantic) := by
  refine ⟨(c8_combine_contract [semResult entryRun (.fin 1)]
    [semResult entryCoffee (.fin 0)]).1, ?_⟩
  exact (c8_combine_contract [semResult entryRun (.fin 1)]
    [semResult entryCoffee (.fin 0)]).2.1 _ (List.mem_singleton.mpr rfl)

/-! ### Claim C9: no search operation disturbs the corpus entries -/

theorem hybridSemStep_eq (α : ℚ) (maxS : JNum) (m : List (String × SearchResult))
    (r : SearchResult) :
    hybridSemStep α maxS m r =
      mapSet (hybridKey r)
        { r with
            hybrid_score := some (jadd (jmul (.fin α) (hybridNormSem maxS r))
              (jmul (.fin (1 - α)) (.fin 0))) } m := rfl

theorem hybridKwStep_eq (α : ℚ) (maxS maxK : JNum) (m : List (String × SearchResult))
    (r : SearchResult) :
    hybridKwStep α maxS maxK m r =
      if mapHasKey (hybridKey r) m then
        mapUpdate (hybridKey r)
          (fun ex =>
            { ex with
                hybrid_score := some (jadd
                  (jmul (.fin α) (jdiv (orZero ex.similarity_score) maxS))
                  (jmul (.fin (1 - α)) (hybridNormKw maxK r))) }) m
      else
        mapSet (hybridKey r)
          { r with
              hybrid_score := some (jadd (jmul (.fin α) (.fin 0))
                (jmul (.fin (1 - α)) (hybridNormKw maxK r))) } m := rfl

theorem performHybridSearch_eq (L : ℚ → ℚ) (c : List JournalEntry) (q : String)
    (k : ℕ) (α : ℚ) :
    performHybridSearch L c q k α =
      ((jsSort (fun r => orZero r.hybrid_score)
        (mapValues (hybridMap L c q k α))).take k) := rfl

/-- Helper: the entry data of a semantic result is a corpus entry. -/
theorem semOut_entry_mem {L : ℚ → ℚ} {c : List JournalEntry} {q : String} {k : ℕ}
    {r : SearchResult} (hr : r ∈ performSemanticSearch L c q k) : toEntry r ∈ c := by
  by_cases h : c.length = 0
  · unfold performSemanticSearch at hr
    rw [if_pos h] at hr
    simp at hr
  · rw [performSemanticSearch_eq L c q k h] at hr
    obtain ⟨p, hp, rfl⟩ := List.mem_map.mp hr
    have hp' : p ∈ semSims L c q := mem_jsSort.mp (List.take_subset _ _ hp)
    have hlt : p.1 < c.length := by
      unfold semSims at hp'
      obtain ⟨i, hi, he⟩ := List.mem_map.mp hp'
      rw [← he]
      have hi' : i < (semDocs c).length := List.mem_range.mp hi
      simpa [semDocs] using hi'
    exact getD_mem c p.1 blankEntry hlt

/-- Helper: keyword output comes from the scored list. -/
theorem kwOut_mem_scored {c : List JournalEntry} {q : String} {k : ℕ}
    {r : SearchResult} (hr : r ∈ performKeywordSearch c q k) :
    r ∈ kwScoredList c q := by
  by_cases h : c.length = 0
  · unfold performKeywordSearch at hr
    rw [if_pos h] at hr
    simp at hr
  · rw [performKeywordSearch_eq c q k h] at hr
    exact (List.mem_filter.mp (mem_jsSort.mp (List.take_subset _ _ hr))).1

/-- Helper: the entry data of a keyword-scored result is a corpus entry. -/
theorem kwScored_entry_mem {c : List JournalEntry} {q : String} {r : SearchResult}
    (hr : r ∈ kwScoredList c q) : toEntry r ∈ c := by
  obtain ⟨e, he, rfl⟩ := List.mem_map.mp hr
  exact he

theorem kwOut_entry_mem {c : List JournalEntry} {q : String} {k : ℕ}
    {r : SearchResult} (hr : r ∈ performKeywordSearch c q k) : toEntry r ∈ c :=
  kwScored_entry_mem (kwOut_mem_scored hr)

/-- Helper: the entry data of a BM25 result is a corpus entry. -/
theorem bm25Out_entry_mem {L : ℚ → ℚ} {c : List JournalEntry} {q : String} {k : ℕ}
    {r : SearchResult} (hr : r ∈ performBM25Search L c q k) : toEntry r ∈ c := by
  by_cases h : c.length = 0
  · unfold performBM25Search at hr
    rw [if_pos h] at hr
    simp at hr
  · rw [performBM25Search_eq L c q k h] at hr
    have hr' : r ∈ bm25ScoredList L c q :=
      (List.mem_filter.mp (mem_jsSort.mp (List.take_subset _ _ hr))).1
    obtain ⟨e, he, rfl⟩ := List.mem_map.mp hr'
    exact he

/-- Helper: every value of the hybrid merge map carries a corpus entry. -/
theorem hybridMap_entry_mem {L : ℚ → ℚ} {c : List JournalEntry} {q : String}
    {k : ℕ} {α : ℚ} {v : SearchResult}
    (hv : v ∈ mapValues (hybridMap L c q k α)) : toEntry v ∈ c := by
  unfold hybridMap at hv
  refine foldl_inv (fun m => ∀ w ∈ mapValues m, toEntry w ∈ c) _ _ _ ?_ ?_ v hv
  · -- base: the semantic seeding loop
    refine foldl_inv (fun m => ∀ w ∈ mapValues m, toEntry w ∈ c) _ _ []
      (by simp [mapValues]) ?_
    intro r hrsem m' hm' w hw
    rw [hybridSemStep_eq] at hw
    rcases mem_mapValues_mapSet _ _ m' hw with h | h
    · subst h
      show toEntry r ∈ c
      exact semOut_entry_mem hrsem
    · exact hm' w h
  · -- step: the keyword merge loop
    intro r hrkw m' hm' w hw
    rw [hybridKwStep_eq] at hw
    by_cases hh : mapHasKey (hybridKey r) m'
    · rw [if_pos hh] at hw
      rcases mem_mapValues_mapUpdate _ _ m' hw with h | ⟨u, hu, rfl⟩
      · exact hm' w h
      · exact hm' u hu
    · rw [if_neg hh] at hw
      rcases mem_mapValues_mapSet _ _ m' hw with h | h
      · subst h
        show toEntry r ∈ c
        exact kwOut_entry_mem hrkw
      · exact hm' w h

/-- C9: no search operation mutates or invents entry data — every returned
result carries the `date`, `day`, `text` and `timestamp` of some supplied
entry verbatim (the source builds each result as a fresh spread
`{ ...entry, score }` and never assigns to an input entry). -/
theorem c9_no_mutation (L : ℚ → ℚ) (c : List JournalEntry) (q : String)
    (k k₁ k₂ k₃ : ℕ) (α : ℚ) (semRes kwRes : List SearchResult) :
    (∀ r ∈ performSemanticSearch L c q k, toEntry r ∈ c) ∧
    (∀ r ∈ performKeywordSearch c q k₁, toEntry r ∈ c) ∧
    (∀ r ∈ performBM25Search L c q k₂, toEntry r ∈ c) ∧
    (∀ r ∈ performHybridSearch L c q k₃ α, toEntry r ∈ c) ∧
    (∀ r ∈ combineSearchResults semRes kwRes,
      toEntry r ∈ semRes.map toEntry ∨ toEntry r ∈ kwRes.map toEntry) := by
  refine ⟨fun r hr => semOut_entry_mem hr, fun r hr => kwOut_entry_mem hr,
    fun r hr => bm25Out_entry_mem hr, ?_, ?_⟩
  · intro r hr
    rw [performHybridSearch_eq] at hr
    exact hybridMap_entry_mem (mem_jsSort.mp (List.take_subset _ _ hr))
  · intro r hr
    have hrv : r ∈ mapValues (combineMap semRes kwRes) :=
      List.take_subset _ _ hr
    unfold combineMap at hrv
    refine foldl_inv
      (fun m => ∀ w ∈ mapValues m,
        toEntry w ∈ semRes.map toEntry ∨ toEntry w ∈ kwRes.map toEntry)
      combineKwStep kwRes _ ?_ ?_ r hrv
    · refine foldl_inv
        (fun m => ∀ w ∈ mapValues m,
          toEntry w ∈ semRes.map toEntry ∨ toEntry w ∈ kwRes.map toEntry)
        combineSemStep semRes [] (by simp [mapValues]) ?_
      intro s hs m' hm' w hw
      rcases mem_mapValues_mapSet _ _ m' hw with h | h
      · subst h
        exact Or.inl (List.mem_map.mpr ⟨s, hs, rfl⟩)
      · exact hm' w h
    · intro s hs m' hm' w hw
      unfold combineKwStep at hw
      by_cases hh : mapHasKey (combineKey s) m'
      · rw [if_pos hh] at hw
        exact hm' w hw
      · rw [if_neg hh] at hw
        rcases mem_mapValues_mapSet _ _ m' hw with h | h
        · subst h
          exact Or.inr (List.mem_map.mpr ⟨s, hs, rfl⟩)
        · exact hm' w h

/-- Witness for C9: the top semantic result for "running" carries the
"running" entry of the corpus unchanged. -/
theorem c9_witness : toEntry (semResult entryRun (JNum.fin 1)) ∈ corpus3 := by
  refine (c9_no_mutation signLog corpus3 "running" 5 5 5 5 (1/2) [] []).1 _ ?_
  have h : performSemanticSearch signLog corpus3 "running" 5 =
      [semResult entryRun (.fin 1), semResult entryCoffee (.fin 0),
        semResult entryWalk (.fin 0)] := by
    with_unfolding_all rfl
  rw [h]
  exact List.mem_cons_self _ _

/-! ### Finiteness and shape lemmas for the hybrid combiner (claim C4) -/

theorem jdiv_fin_fin (a b : ℚ) (hb : b ≠ 0) : jdiv (.fin a) (.fin b) = .fin (a / b) := by
  simp [jdiv, hb]

theorem jdiv_nan_right (x : JNum) : jdiv x .nan = .nan := by
  cases x <;> rfl

theorem jmul_nan_left (x : JNum) : jmul .nan x = .nan := by
  cases x <;> rfl

theorem notInf_fin (q : ℚ) : NotInf (.fin q) := Or.inr ⟨q, rfl⟩

theorem notInf_nan : NotInf .nan := Or.inl rfl

theorem notInf_jadd {a b : JNum} (ha : NotInf a) (hb : NotInf b) :
    NotInf (jadd a b) := by
  rcases ha with rfl | ⟨qa, rfl⟩ <;> rcases hb with rfl | ⟨qb, rfl⟩
  · exact notInf_nan
  · exact notInf_nan
  · exact notInf_nan
  · exact notInf_fin (qa + qb)

theorem notInf_jmul {a b : JNum} (ha : NotInf a) (hb : NotInf b) :
    NotInf (jmul a b) := by
  rcases ha with rfl | ⟨qa, rfl⟩ <;> rcases hb with rfl | ⟨qb, rfl⟩
  · exact notInf_nan
  · exact notInf_nan
  · exact notInf_nan
  · exact notInf_fin (qa * qb)

theorem notInf_foldl_jadd (l : List JNum) :
    ∀ s : JNum, NotInf s → (∀ x ∈ l, NotInf x) → NotInf (l.foldl jadd s) := by
  induction l with
  | nil => intro s hs _; simpa using hs
  | cons x l ih =>
      intro s hs hall
      rw [List.foldl_cons]
      exact ih (jadd s x) (notInf_jadd hs (hall x (List.mem_cons_self x l)))
        (fun y hy => hall y (List.mem_cons_of_mem x hy))

theorem notInf_zipWith_jmul :
    ∀ (A B : List JNum), (∀ x ∈ A, NotInf x) → (∀ x ∈ B, NotInf x) →
      ∀ y ∈ List.zipWith jmul A B, NotInf y := by
  intro A
  induction A with
  | nil => intro B _ _ y hy; simp at hy
  | cons a A ih =>
      intro B hA hB y hy
      cases B with
      | nil => simp at hy
      | cons b B =>
          rw [List.zipWith_cons_cons] at hy
          rcases List.mem_cons.mp hy with h | h
          · subst h
            exact notInf_jmul (hA a (by simp)) (hB b (by simp))
          · exact ih B (fun x hx => hA x (by simp [hx]))
              (fun x hx => hB x (by simp [hx])) y h

theorem ratSqrt_spec {q r : ℚ} (h : ratSqrt q = some r) : 0 ≤ r ∧ r * r = q := by
  unfold ratSqrt at h
  by_cases hq : q.num < 0
  · rw [if_pos hq] at h
    exact absurd h (by simp)
  · rw [if_neg hq] at h
    rcases hfn : (List.range (q.num.toNat + 1)).find? (fun r => r * r == q.num.toNat)
      with _ | sn
    · rw [hfn] at h
      exact absurd h (by simp)
    · rcases hfd : (List.range (q.den + 1)).find? (fun r => r * r == q.den) with _ | sd
      · rw [hfn, hfd] at h
        exact absurd h (by simp)
      · rw [hfn, hfd] at h
        have hsn : sn * sn = q.num.toNat := by
          have h' := List.find?_some hfn
          simpa using h'
        have hsd : sd * sd = q.den := by
          have h' := List.find?_some hfd
          simpa using h'
        have hr : r = (sn : ℚ) / (sd : ℚ) := (Option.some_inj.mp h).symm
        have hdenpos : 0 < q.den := q.pos
        have hsd0 : (sd : ℚ) ≠ 0 := by
          intro h0
          have : sd = 0 := by exact_mod_cast h0
          rw [this] at hsd
          simp at hsd
          rw [← hsd] at hdenpos
          exact lt_irrefl 0 hdenpos
        constructor
        · rw [hr]
          exact div_nonneg (Nat.cast_nonneg sn) (Nat.cast_nonneg sd)
        · rw [hr]
          have hnum : ((sn * sn : ℕ) : ℚ) = ((q.num.toNat : ℕ) : ℚ) := by
            exact_mod_cast congrArg (fun n : ℕ => (n : ℚ)) hsn
          have hden : ((sd * sd : ℕ) : ℚ) = ((q.den : ℕ) : ℚ) := by
            exact_mod_cast congrArg (fun n : ℕ => (n : ℚ)) hsd
          have hq' : ((q.num.toNat : ℕ) : ℚ) = (q.num : ℚ) := by
            have := Int.toNat_of_nonneg (not_lt.mp hq)
            exact_mod_cast congrArg (fun z : ℤ => (z : ℚ)) this
          calc (sn : ℚ) / (sd : ℚ) * ((sn : ℚ) / (sd : ℚ))
              = ((sn * sn : ℕ) : ℚ) / ((sd * sd : ℕ) : ℚ) := by
                push_cast
                ring
            _ = (q.num : ℚ) / (q.den : ℚ) := by rw [hnum, hden, hq']
            _ = q := Rat.num_div_den q

theorem jsqrt_shape {x : JNum} (hx : NotInf x) (hne : x ≠ .fin 0) :
    jsqrt x = .nan ∨ ∃ r : ℚ, jsqrt x = .fin r ∧ 0 < r := by
  rcases hx with rfl | ⟨q, rfl⟩
  · left; rfl
  · have hred : jsqrt (.fin q) = if q < 0 then .nan else
        match ratSqrt q with
        | some r => .fin r
        | none => .nan := rfl
    rw [hred]
    by_cases hq : q < 0
    · rw [if_pos hq]
      left; rfl
    · rw [if_neg hq]
      rcases hr : ratSqrt q with _ | r
      · left; rfl
      · right
        obtain ⟨hr0, hrr⟩ := ratSqrt_spec hr
        have hq0 : q ≠ 0 := fun h => hne (by rw [h])
        have hqpos : 0 < q := lt_of_le_of_ne (not_lt.mp hq) (Ne.symm hq0)
        refine ⟨r, rfl, ?_⟩
        rcases lt_or_eq_of_le hr0 with h | h
        · exact h
        · exfalso
          rw [← h] at hrr
          simp at hrr
          rw [← hrr] at hqpos
          exact lt_irrefl 0 hqpos

theorem cosine_notInf (A B : List JNum) (hA : ∀ x ∈ A, NotInf x)
    (hB : ∀ x ∈ B, NotInf x) : NotInf (cosineSimilarity A B) := by
  unfold cosineSimilarity
  by_cases hlen : A.length ≠ B.length
  · rw [if_pos hlen]
    exact notInf_fin 0
  · rw [if_neg hlen]
    show NotInf (if ((A.map (fun x => jmul x x)).foldl jadd (.fin 0)) = .fin 0 ∨
        ((B.map (fun x => jmul x x)).foldl jadd (.fin 0)) = .fin 0 then .fin 0
      else jdiv ((List.zipWith jmul A B).foldl jadd (.fin 0))
        (jmul (jsqrt ((A.map (fun x => jmul x x)).foldl jadd (.fin 0)))
          (jsqrt ((B.map (fun x => jmul x x)).foldl jadd (.fin 0)))))
    by_cases hg : ((A.map (fun x => jmul x x)).foldl jadd (.fin 0)) = .fin 0 ∨
        ((B.map (fun x => jmul x x)).foldl jadd (.fin 0)) = .fin 0
    · rw [if_pos hg]
      exact notInf_fin 0
    · rw [if_neg hg]
      push_neg at hg
      have hsq : ∀ (V : List JNum), (∀ x ∈ V, NotInf x) →
          ∀ y ∈ V.map (fun x => jmul x x), NotInf y := by
        intro V hV y hy
        obtain ⟨a, ha, rfl⟩ := List.mem_map.mp hy
        exact notInf_jmul (hV a ha) (hV a ha)
      have hnA : NotInf ((A.map (fun x => jmul x x)).foldl jadd (.fin 0)) :=
        notInf_foldl_jadd _ _ (notInf_fin 0) (hsq A hA)
      have hnB : NotInf ((B.map (fun x => jmul x x)).foldl jadd (.fin 0)) :=
        notInf_foldl_jadd _ _ (notInf_fin 0) (hsq B hB)
      have hD : NotInf ((List.zipWith jmul A B).foldl jadd (.fin 0)) :=
        notInf_foldl_jadd _ _ (notInf_fin 0) (notInf_zipWith_jmul A B hA hB)
      rcases jsqrt_shape hnA hg.1 with hA' | ⟨r1, hA', hr1⟩
      · rw [hA', jmul_nan_left, jdiv_nan_right]
        exact notInf_nan
      · rcases jsqrt_shape hnB hg.2 with hB' | ⟨r2, hB', hr2⟩
        · rw [hA', hB']
          rw [show jmul (JNum.fin r1) JNum.nan = JNum.nan from rfl, jdiv_nan_right]
          exact notInf_nan
        · rw [hA', hB']
          rw [show jmul (JNum.fin r1) (JNum.fin r2) = JNum.fin (r1 * r2) from rfl]
          rcases hD with hDn | ⟨qd, hDf⟩
          · rw [hDn]
            exact notInf_nan
          · rw [hDf, jdiv_fin_fin _ _ (ne_of_gt (mul_pos hr1 hr2))]
            exact notInf_fin _

theorem docVector_notInf (L : ℚ → ℚ) (n : ℕ) (docToks : List (List (List Char)))
    (vocab : List (List Char)) (i : ℕ) :
    ∀ x ∈ docVector L n docToks vocab i, NotInf x := by
  intro x hx
  obtain ⟨t, _, rfl⟩ := List.mem_map.mp hx
  exact notInf_fin _

theorem queryVector_notInf (L : ℚ → ℚ) (n : ℕ) (docToks : List (List (List Char)))
    (vocab : List (List Char)) (qts : List (List Char)) :
    ∀ x ∈ queryVector L n docToks vocab qts, NotInf x := by
  intro x hx
  obtain ⟨t, _, rfl⟩ := List.mem_map.mp hx
  by_cases h : (qts.length : ℚ) = 0
  · have h0 : qts = [] := List.length_eq_zero.mp (by exact_mod_cast h)
    subst h0
    rw [show jdiv (.fin ((List.count t ([] : List (List Char))) : ℚ))
        (.fin ((([] : List (List Char)).length : ℕ) : ℚ)) = JNum.nan from by
      norm_num [List.count_nil, jdiv]]
    exact Or.inl rfl
  · rw [jdiv_fin_fin _ _ h]
    exact notInf_jmul (notInf_fin _) (notInf_fin _)

/-- Every similarity the vector scorer outputs is finite or NaN (never
±Infinity): the final division's denominator is NaN or strictly positive. -/
theorem semOut_sim_shape {L : ℚ → ℚ} {c : List JournalEntry} {q : String} {k : ℕ}
    {r : SearchResult} (hr : r ∈ performSemanticSearch L c q k) :
    ∃ s, r.similarity_score = some s ∧ NotInf s := by
  by_cases h : c.length = 0
  · unfold performSemanticSearch at hr
    rw [if_pos h] at hr
    simp at hr
  · rw [performSemanticSearch_eq L c q k h] at hr
    obtain ⟨p, hp, rfl⟩ := List.mem_map.mp hr
    refine ⟨p.2, rfl, ?_⟩
    have hp' : p ∈ semSims L c q := mem_jsSort.mp (List.take_subset _ _ hp)
    unfold semSims at hp'
    obtain ⟨i, _, he⟩ := List.mem_map.mp hp'
    rw [← he]
    show NotInf (cosineSimilarity (semQueryVec L c q) (semDocVec L c q i))
    exact cosine_notInf _ _
      (by unfold semQueryVec; exact queryVector_notInf _ _ _ _ _)
      (by unfold semDocVec; exact docVector_notInf _ _ _ _ _)

/-- Every keyword result carries a finite rational `keyword_score` and no
`similarity_score`. -/
theorem kwOut_shape {c : List JournalEntry} {q : String} {k : ℕ} {r : SearchResult}
    (hr : r ∈ performKeywordSearch c q k) :
    (∃ n : ℕ, r.keyword_score = some (.fin (n : ℚ))) ∧ r.similarity_score = none := by
  obtain ⟨e, _, rfl⟩ := List.mem_map.mp (kwOut_mem_scored hr)
  exact ⟨⟨keywordScoreOf (tokenize q) (lowerData q) (lowerData e.text), rfl⟩, rfl⟩

theorem foldl_jmax_shape :
    ∀ (l : List JNum) (init : JNum), (∀ x ∈ l, ∃ q, x = .fin q) →
      (init = .ninf ∨ ∃ q, init = .fin q) →
      (l.foldl jmax init = .ninf ∨ ∃ q, l.foldl jmax init = .fin q) := by
  intro l
  induction l with
  | nil => intro init _ h0; simpa using h0
  | cons x l ih =>
      intro init hall h0
      rw [List.foldl_cons]
      obtain ⟨qx, rfl⟩ := hall x (List.mem_cons_self x l)
      refine ih (jmax init (.fin qx))
        (fun y hy => hall y (List.mem_cons_of_mem _ hy)) ?_
      rcases h0 with rfl | ⟨qi, rfl⟩
      · exact Or.inr ⟨qx, rfl⟩
      · exact Or.inr ⟨max qi qx, rfl⟩

theorem jmaxList_shape (l : List JNum) (h : ∀ x ∈ l, ∃ q, x = .fin q) :
    jmaxList l = .ninf ∨ ∃ q, jmaxList l = .fin q :=
  foldl_jmax_shape l .ninf h (Or.inl rfl)

theorem jltB_zero_fin {x : JNum} (h : jltB (.fin 0) x = true)
    (hs : x = .ninf ∨ ∃ q, x = .fin q) : ∃ q : ℚ, x = .fin q ∧ 0 < q := by
  rcases hs with rfl | ⟨q, rfl⟩
  · exact absurd h (by simp [jltB])
  · exact ⟨q, rfl, of_decide_eq_true h⟩

theorem orZero_shape {s : JNum} (hs : NotInf s) : ∃ q, orZero (some s) = .fin q := by
  rcases hs with rfl | ⟨q, rfl⟩
  · exact ⟨0, rfl⟩
  · exact ⟨q, rfl⟩

/-- The `Math.max` over the semantic scores is a positive finite number
whenever the code's `maxSemanticScore > 0` test passes. -/
theorem hybridMaxSem_pos {L : ℚ → ℚ} {c : List JournalEntry} {q : String} {k₂ : ℕ}
    (hm : jltB (.fin 0) (hybridMaxSem (performSemanticSearch L c q k₂)) = true) :
    ∃ ms : ℚ, hybridMaxSem (performSemanticSearch L c q k₂) = .fin ms ∧ 0 < ms := by
  apply jltB_zero_fin hm
  unfold hybridMaxSem
  apply jmaxList_shape
  intro x hx
  obtain ⟨r, hr, rfl⟩ := List.mem_map.mp hx
  obtain ⟨s, hs, hnis⟩ := semOut_sim_shape hr
  rw [hs]
  exact orZero_shape hnis

/-- The guarded keyword normalization always produces a finite number for a
keyword result. -/
theorem hybridNormKw_fin {c : List JournalEntry} {q : String} {k₂ : ℕ}
    {r : SearchResult} (hr : r ∈ performKeywordSearch c q k₂) :
    ∃ z : ℚ, hybridNormKw (hybridMaxKw (performKeywordSearch c q k₂)) r = .fin z := by
  have hshape : hybridMaxKw (performKeywordSearch c q k₂) = .ninf ∨
      ∃ mq, hybridMaxKw (performKeywordSearch c q k₂) = .fin mq := by
    unfold hybridMaxKw
    apply jmaxList_shape
    intro x hx
    obtain ⟨r', hr', rfl⟩ := List.mem_map.mp hx
    obtain ⟨⟨n, hn⟩, _⟩ := kwOut_shape hr'
    rw [hn]
    exact ⟨(n : ℚ), rfl⟩
  unfold hybridNormKw
  cases hjb : jltB (.fin 0) (hybridMaxKw (performKeywordSearch c q k₂)) with
  | false => rw [if_neg (by simp [hjb])]; exact ⟨0, rfl⟩
  | true =>
      rw [if_pos (by simp [hjb])]
      obtain ⟨mk, hmk, hpos⟩ := jltB_zero_fin hjb hshape
      obtain ⟨⟨n, hn⟩, _⟩ := kwOut_shape hr
      rw [hmk, hn, show orZero (some (.fin (n : ℚ))) = .fin (n : ℚ) from rfl,
        jdiv_fin_fin _ _ (ne_of_gt hpos)]
      exact ⟨_, rfl⟩

/-! ### The `alpha`-weighting identities used by the hybrid combiner -/

theorem c4_expr1 (x : JNum) (z : ℚ) :
    jadd (jmul (.fin 1) x) (jmul (.fin (1 - 1)) (.fin z)) = x := by
  have h1 : ((1 : ℚ) - 1) = 0 := by norm_num
  rw [h1, jmul_one_left, jmul_zero_fin, jadd_zero_right]

theorem c4_expr0 (x : ℚ) (y : JNum) :
    jadd (jmul (.fin 0) (.fin x)) (jmul (.fin (1 - 0)) y) = y := by
  have h1 : ((1 : ℚ) - 0) = 1 := by norm_num
  rw [h1, jmul_zero_fin, jmul_one_left, jadd_zero_left]

/-! ### Claim C4: what the extreme `alpha` values actually compute -/

/-- C4 (counterexample): on the three-entry corpus with query "running",
some semantic result has positive similarity (the `maxSemanticScore > 0`
hypothesis of the claim holds), the normalized keyword ranking has exactly
one entry, yet `hybridSearch` with `alpha = 0` returns three entries: the
two entries found only by the zero-weighted semantic side appear in the
output (with `hybrid_score` 0) alongside the keyword result. -/
theorem c4_counterexample :
    jltB (.fin 0) (hybridMaxSem (performSemanticSearch signLog corpus3 "running" 10)) =
      true ∧
    (performHybridSearch signLog corpus3 "running" 5 0).length = 3 ∧
    (performKeywordSearch corpus3 "running" 5).length = 1 ∧
    (performHybridSearch signLog corpus3 "running" 5 0).map (fun r => r.date) =
      ["2024-01-01", "2024-01-02", "2024-01-03"] ∧
    (performKeywordSearch corpus3 "running" 5).map (fun r => r.date) =
      ["2024-01-01"] :=
  ⟨by with_unfolding_all rfl, by with_unfolding_all rfl, by with_unfolding_all rfl,
    by with_unfolding_all rfl, by with_unfolding_all rfl⟩

/-- C4 (amended): assume the code's `maxSemanticScore > 0` test passes
(equivalently, some semantic result has positive similarity).  Then with
`alpha = 1` every returned result's `hybrid_score` is exactly its
normalized semantic score `(similarity_score || 0) / maxSemanticScore`
(keyword-only entries carry similarity `undefined`, hence score 0); and
with `alpha = 0` every returned result either carries the normalized
keyword score of a keyword result with the same `(date, day)` key, or has
`hybrid_score` exactly 0 (entries found only by the zero-weighted semantic
side — which, contrary to the original claim, do appear in the output). -/
theorem c4_alpha_reduction (L : ℚ → ℚ) (c : List JournalEntry) (q : String) (k : ℕ)
    (hm : jltB (.fin 0) (hybridMaxSem (performSemanticSearch L c q (k * 2))) = true) :
    (∀ r ∈ performHybridSearch L c q k 1,
      r.hybrid_score = some (jdiv (orZero r.similarity_score)
        (hybridMaxSem (performSemanticSearch L c q (k * 2))))) ∧
    (∀ r ∈ performHybridSearch L c q k 0,
      (∃ kw ∈ performKeywordSearch c q (k * 2),
        hybridKey kw = hybridKey r ∧
        r.hybrid_score = some (hybridNormKw
          (hybridMaxKw (performKeywordSearch c q (k * 2))) kw)) ∨
      r.hybrid_score = some (.fin 0)) := by
  obtain ⟨ms, hms, hmspos⟩ := hybridMaxSem_pos hm
  have hsim_fin : ∀ r ∈ performSemanticSearch L c q (k * 2), ∃ z : ℚ,
      jdiv (orZero r.similarity_score)
        (hybridMaxSem (performSemanticSearch L c q (k * 2))) = .fin z := by
    intro r hr
    obtain ⟨s, hs, hnis⟩ := semOut_sim_shape hr
    rw [hs]
    obtain ⟨qz, hqz⟩ := orZero_shape hnis
    rw [hqz, hms, jdiv_fin_fin _ _ (ne_of_gt hmspos)]
    exact ⟨_, rfl⟩
  have half1 : ∀ v ∈ mapValues (hybridMap L c q k 1),
      v.hybrid_score = some (jdiv (orZero v.similarity_score)
        (hybridMaxSem (performSemanticSearch L c q (k * 2)))) := by
    intro v hv
    unfold hybridMap at hv
    refine foldl_inv (fun m => ∀ w ∈ mapValues m,
        w.hybrid_score = some (jdiv (orZero w.similarity_score)
          (hybridMaxSem (performSemanticSearch L c q (k * 2))))) _ _ _ ?_ ?_ v hv
    · refine foldl_inv (fun m => ∀ w ∈ mapValues m,
          w.hybrid_score = some (jdiv (orZero w.similarity_score)
            (hybridMaxSem (performSemanticSearch L c q (k * 2))))) _ _ []
        (by simp [mapValues]) ?_
      intro r hrsem m' hm' w hw
      rw [hybridSemStep_eq] at hw
      rcases mem_mapValues_mapSet _ _ m' hw with h | h
      · subst h
        show some (jadd (jmul (.fin 1) (hybridNormSem
            (hybridMaxSem (performSemanticSearch L c q (k * 2))) r))
            (jmul (.fin (1 - 1)) (.fin 0))) =
          some (jdiv (orZero r.similarity_score)
            (hybridMaxSem (performSemanticSearch L c q (k * 2))))
        rw [c4_expr1]
        unfold hybridNormSem
        rw [if_pos hm]
      · exact hm' w h
    · intro r hrkw m' hm' w hw
      rw [hybridKwStep_eq] at hw
      obtain ⟨nk, hnk⟩ := hybridNormKw_fin hrkw
      by_cases hh : mapHasKey (hybridKey r) m'
      · rw [if_pos hh] at hw
        rcases mem_mapValues_mapUpdate _ _ m' hw with h | ⟨u, hu, rfl⟩
        · exact hm' w h
        · show some (jadd (jmul (.fin 1) (jdiv (orZero u.similarity_score)
              (hybridMaxSem (performSemanticSearch L c q (k * 2)))))
              (jmul (.fin (1 - 1))
                (hybridNormKw (hybridMaxKw (performKeywordSearch c q (k * 2))) r))) =
            some (jdiv (orZero u.similarity_score)
              (hybridMaxSem (performSemanticSearch L c q (k * 2))))
          rw [hnk, c4_expr1]
      · rw [if_neg hh] at hw
        rcases mem_mapValues_mapSet _ _ m' hw with h | h
        · subst h
          obtain ⟨_, hsimnone⟩ := kwOut_shape hrkw
          show some (jadd (jmul (.fin 1) (.fin 0))
              (jmul (.fin (1 - 1))
                (hybridNormKw (hybridMaxKw (performKeywordSearch c q (k * 2))) r))) =
            some (jdiv (orZero r.similarity_score)
              (hybridMaxSem (performSemanticSearch L c q (k * 2))))
          rw [hnk, c4_expr1, hsimnone,
            show orZero none = JNum.fin 0 from rfl, hms,
            jdiv_fin_fin _ _ (ne_of_gt hmspos), zero_div]
        · exact hm' w h
  have half0 : ∀ p ∈ hybridMap L c q k 0,
      hybridKey p.2 = p.1 ∧
      ((∃ kw ∈ performKeywordSearch c q (k * 2),
          hybridKey kw = hybridKey p.2 ∧
          p.2.hybrid_score = some (hybridNormKw
            (hybridMaxKw (performKeywordSearch c q (k * 2))) kw)) ∨
        p.2.hybrid_score = some (.fin 0)) ∧
      (∃ z : ℚ, jdiv (orZero p.2.similarity_score)
        (hybridMaxSem (performSemanticSearch L c q (k * 2))) = .fin z) := by
    intro p hp
    unfold hybridMap at hp
    refine foldl_inv (fun m : List (String × SearchResult) => ∀ p' ∈ m,
        hybridKey p'.2 = p'.1 ∧
        ((∃ kw ∈ performKeywordSearch c q (k * 2),
            hybridKey kw = hybridKey p'.2 ∧
            p'.2.hybrid_score = some (hybridNormKw
              (hybridMaxKw (performKeywordSearch c q (k * 2))) kw)) ∨
          p'.2.hybrid_score = some (.fin 0)) ∧
        (∃ z : ℚ, jdiv (orZero p'.2.similarity_score)
          (hybridMaxSem (performSemanticSearch L c q (k * 2))) = .fin z)) _ _ _ ?_ ?_ p hp
    · refine foldl_inv (fun m : List (String × SearchResult) => ∀ p' ∈ m,
          hybridKey p'.2 = p'.1 ∧
          ((∃ kw ∈ performKeywordSearch c q (k * 2),
              hybridKey kw = hybridKey p'.2 ∧
              p'.2.hybrid_score = some (hybridNormKw
                (hybridMaxKw (performKeywordSearch c q (k * 2))) kw)) ∨
            p'.2.hybrid_score = some (.fin 0)) ∧
          (∃ z : ℚ, jdiv (orZero p'.2.similarity_score)
            (hybridMaxSem (performSemanticSearch L c q (k * 2))) = .fin z)) _ _ []
        (by simp) ?_
      intro r hrsem m' hm' p' hp'
      rw [hybridSemStep_eq] at hp'
      rcases mem_mapSet_pairs _ _ m' hp' with h | h
      · subst h
        obtain ⟨z, hz⟩ := hsim_fin r hrsem
        refine ⟨rfl, Or.inr ?_, ?_⟩
        · show some (jadd (jmul (.fin 0) (hybridNormSem
              (hybridMaxSem (performSemanticSearch L c q (k * 2))) r))
              (jmul (.fin (1 - 0)) (.fin 0))) = some (.fin 0)
          unfold hybridNormSem
          rw [if_pos hm, hz, c4_expr0]
        · show ∃ z : ℚ, jdiv (orZero r.similarity_score)
              (hybridMaxSem (performSemanticSearch L c q (k * 2))) = .fin z
          exact ⟨z, hz⟩
      · exact hm' p' h
    · intro r hrkw m' hm' p' hp'
      rw [hybridKwStep_eq] at hp'
      by_cases hh : mapHasKey (hybridKey r) m'
      · rw [if_pos hh] at hp'
        rcases mem_mapUpdate_pairs _ _ m' hp' with h | ⟨p'', hp'', hk'', hpe⟩
        · exact hm' p' h
        · obtain ⟨hkey'', _, ⟨z, hz⟩⟩ := hm' p'' hp''
          subst hpe
          have hfkey : hybridKey
              ({ p''.2 with
                  hybrid_score := some (jadd
                    (jmul (.fin 0) (jdiv (orZero p''.2.similarity_score)
                      (hybridMaxSem (performSemanticSearch L c q (k * 2)))))
                    (jmul (.fin (1 - 0))
                      (hybridNormKw (hybridMaxKw (performKeywordSearch c q (k * 2)))
                        r))) } : SearchResult) = hybridKey p''.2 := rfl
          refine ⟨?_, Or.inl ⟨r, hrkw, ?_, ?_⟩, ?_⟩
          · show hybridKey _ = hybridKey r
            rw [hfkey, hkey'', hk'']
          · show hybridKey r = hybridKey _
            rw [hfkey, hkey'', hk'']
          · show some (jadd (jmul (.fin 0) (jdiv (orZero p''.2.similarity_score)
                (hybridMaxSem (performSemanticSearch L c q (k * 2)))))
                (jmul (.fin (1 - 0))
                  (hybridNormKw (hybridMaxKw (performKeywordSearch c q (k * 2))) r))) =
              some (hybridNormKw (hybridMaxKw (performKeywordSearch c q (k * 2))) r)
            rw [hz, c4_expr0]
          · show ∃ z : ℚ, jdiv (orZero p''.2.similarity_score)
                (hybridMaxSem (performSemanticSearch L c q (k * 2))) = .fin z
            exact ⟨z, hz⟩
      · rw [if_neg hh] at hp'
        rcases mem_mapSet_pairs _ _ m' hp' with h | h
        · subst h
          obtain ⟨_, hsimnone⟩ := kwOut_shape hrkw
          refine ⟨rfl, Or.inl ⟨r, hrkw, rfl, ?_⟩, ?_⟩
          · show some (jadd (jmul (.fin 0) (.fin 0))
                (jmul (.fin (1 - 0))
                  (hybridNormKw (hybridMaxKw (performKeywordSearch c q (k * 2))) r))) =
              some (hybridNormKw (hybridMaxKw (performKeywordSearch c q (k * 2))) r)
            rw [c4_expr0]
          · show ∃ z : ℚ, jdiv (orZero r.similarity_score)
                (hybridMaxSem (performSemanticSearch L c q (k * 2))) = .fin z
            rw [hsimnone, show orZero none = JNum.fin 0 from rfl, hms,
              jdiv_fin_fin _ _ (ne_of_gt hmspos)]
            exact ⟨_, rfl⟩
        · exact hm' p' h
  constructor
  · intro r hr
    rw [performHybridSearch_eq] at hr
    exact half1 r (mem_jsSort.mp (List.take_subset _ _ hr))
  · intro r hr
    rw [performHybridSearch_eq] at hr
    have hrv : r ∈ mapValues (hybridMap L c q k 0) :=
      mem_jsSort.mp (List.take_subset _ _ hr)
    obtain ⟨p, hp, hpe⟩ := mem_pairs_of_mem_values hrv
    obtain ⟨_, hP, _⟩ := half0 p hp
    rw [← hpe]
    exact hP

/-- Witness for C4 (amended) on the three-entry corpus: the hypothesis
holds concretely and the top `alpha = 1` result carries its normalized
semantic score. -/
theorem c4_witness :
    jltB (.fin 0)
      (hybridMaxSem (performSemanticSearch signLog corpus3 "running" (5 * 2))) = true ∧
    hybridTopRun.hybrid_score = some (jdiv (orZero hybridTopRun.similarity_score)
      (hybridMaxSem (performSemanticSearch signLog corpus3 "running" (5 * 2)))) := by
  constructor
  · with_unfolding_all rfl
  · refine (c4_alpha_reduction signLog corpus3 "running" 5
      (by with_unfolding_all rfl)).1 hybridTopRun ?_
    have h : performHybridSearch signLog corpus3 "running" 5 1 =
        [hybridTopRun,
          { date := "2024-01-02", day := "Tuesday", text := "coffee",
            similarity_score := some (.fin 0), hybrid_score := some (.fin 0) },
          { date := "2024-01-03", day := "Wednesday", text := "walking",
            similarity_score := some (.fin 0), hybrid_score := some (.fin 0) }] := by
      with_unfolding_all rfl
    rw [h]
    exact List.mem_cons_self _ _

end Rag
